import Mathlib

/-!
Verification of the JSON mutation engine of caddy-json-parse
(src/mutations.go), against the claims of its specification.

Modelling choices (shallow embedding):

* The decoded JSON value (Go `interface{}` after `json.Unmarshal`) is the
  inductive `Json`.  Go objects are `map[string]interface{}`; they are
  modelled as association lists with pairwise-distinct keys.  Trees produced
  by `json.Unmarshal` always have distinct keys; the predicate `WF` makes
  this invariant explicit where a proof needs it.  Go map iteration order is
  unspecified; the model fixes list order, which no claim here depends on.
* JSON numbers decode to Go `float64`; claims only compare numbers for
  equality, so numbers are modelled as `Int`.
* Go code addresses tree slots through `target` closures holding references
  into the mutable tree (src/mutations.go:280-293).  Since a decoded tree has
  no internal sharing, a closure bundle is equivalent to the access path from
  the root; the model resolves paths to `Loc` values (lists of resolved
  steps) and performs `get`/`set`/`del` by structural recursion from the
  root (`getAt`, `setAt`, `delAt`).  Mutations of one resolved location are
  visible to later ones exactly as in the Go code, because every Go setter
  propagates to the root immediately.
* Compiled Go regular expressions are external to this repository
  (stdlib `regexp`); they are abstracted as a structure `GoRegex` of the
  three operations the engine calls (`MatchString`,
  `FindStringSubmatchIndex`, `ExpandString`).  A concrete instance models
  the pixeldrain regex of the README example.
* `strconv.Atoi` and `strings.Split` are modelled concretely (`goAtoi`,
  `goSplitDot`), including Atoi's int64 range failure.
-/

set_option maxHeartbeats 2000000

namespace JsonParse

/-- JSON value model: the closed variant produced by `json.Unmarshal` into
`interface{}` — nil, bool, float64 (abstracted as `Int`), string,
`[]interface{}`, `map[string]interface{}` (association list). -/
inductive Json : Type where
  | null : Json
  | bool : Bool → Json
  | num : Int → Json
  | str : String → Json
  | arr : List Json → Json
  | obj : List (String × Json) → Json

/-- Go map read `m[k]`: value of the first entry with key `k`. -/
def objLookup : List (String × Json) → String → Option Json
  | [], _ => none
  | (k', v) :: t, k => if k' = k then some v else objLookup t k

/-- Go map read defaulting to the zero value `nil`, i.e. JSON null
(`bv[k]` inside `deepEqual`, src/mutations.go:484). -/
def objLookupD (es : List (String × Json)) (k : String) : Json :=
  (objLookup es k).getD Json.null

/-- Go map write `m[k] = v`: replace the first entry with key `k`,
or append when absent. -/
def objInsert : List (String × Json) → String → Json → List (String × Json)
  | [], k, v => [(k, v)]
  | (k', v') :: t, k, v =>
      if k' = k then (k, v) :: t else (k', v') :: objInsert t k v

/-- Go map `delete(m, k)`: remove the (first) entry with key `k`. -/
def objErase : List (String × Json) → String → List (String × Json)
  | [], _ => []
  | (k', v') :: t, k => if k' = k then t else (k', v') :: objErase t k

/-- Keys of an association list are pairwise distinct (Go map invariant). -/
def keysNodup : List (String × Json) → Bool
  | [] => true
  | (k, _) :: t => !(objLookup t k).isSome && keysNodup t

mutual
/-- Well-formedness: every object in the tree has pairwise-distinct keys.
Holds for every tree decoded by `json.Unmarshal` (Go maps cannot hold
duplicate keys); an artifact of the association-list model. -/
def WF : Json → Bool
  | Json.obj es => keysNodup es && WFEntries es
  | Json.arr a => WFElems a
  | _ => true

/-- All entry values of an object are well-formed. -/
def WFEntries : List (String × Json) → Bool
  | [] => true
  | (_, v) :: t => WF v && WFEntries t

/-- All elements of an array are well-formed. -/
def WFElems : List Json → Bool
  | [] => true
  | v :: t => WF v && WFElems t
end

mutual
/-- Embeds `clone` (src/mutations.go:456-473): recursive copy of maps and
slices, identity on scalars. -/
def clone : Json → Json
  | Json.obj es => Json.obj (cloneEntries es)
  | Json.arr a => Json.arr (cloneElems a)
  | v => v

/-- Clone of each entry of an object. -/
def cloneEntries : List (String × Json) → List (String × Json)
  | [] => []
  | (k, v) :: t => (k, clone v) :: cloneEntries t

/-- Clone of each element of an array. -/
def cloneElems : List Json → List Json
  | [] => []
  | v :: t => clone v :: cloneElems t
end

/-- Go interface equality `av == b` reached in the default case of
`deepEqual` (src/mutations.go:501): both scalars of the same dynamic type
with equal values. -/
def scalarEq : Json → Json → Bool
  | Json.null, Json.null => true
  | Json.bool a, Json.bool b => a == b
  | Json.num a, Json.num b => a == b
  | Json.str a, Json.str b => a == b
  | _, _ => false

mutual
/-- Embeds `deepEqual` (src/mutations.go:476-503).  Objects: equal sizes and
every entry of the first deep-equal to the second's value at that key, where
a missing key reads as Go `nil` (JSON null).  Arrays: equal lengths and
pairwise deep-equal.  Otherwise Go `==`. -/
def deepEqual : Json → Json → Bool
  | Json.obj a, b =>
      match b with
      | Json.obj bv => a.length == bv.length && deepEqualEntries a bv
      | _ => false
  | Json.arr a, b =>
      match b with
      | Json.arr bv => a.length == bv.length && deepEqualElems a bv
      | _ => false
  | a, b => scalarEq a b

/-- The `for k, v := range av` loop of `deepEqual` (src/mutations.go:483). -/
def deepEqualEntries : List (String × Json) → List (String × Json) → Bool
  | [], _ => true
  | (k, v) :: t, bv => deepEqual v (objLookupD bv k) && deepEqualEntries t bv

/-- The `for i := range av` loop of `deepEqual` (src/mutations.go:494);
lengths are already known equal when it runs. -/
def deepEqualElems : List Json → List Json → Bool
  | [], _ => true
  | _, [] => true
  | x :: xs, y :: ys => deepEqual x y && deepEqualElems xs ys
end

/-- A resolved path step: object key or array index. -/
inductive Seg : Type where
  | key : String → Seg
  | idx : Nat → Seg
deriving DecidableEq

/-- A resolved location: the chain of steps from the root to a slot, the
functional image of the Go `target` closure bundle. -/
abbrev Loc := List Seg

/-- Embeds `strconv.Atoi` as used at src/mutations.go:375: optional sign,
one or more ASCII digits, nothing else, and the value must fit in a signed
64-bit integer (out-of-range input returns an error, which `walkTargets`
treats the same as non-numeric). -/
def goAtoi (s : String) : Option Int :=
  let p : Bool × List Char :=
    match s.data with
    | '-' :: t => (true, t)
    | '+' :: t => (false, t)
    | t => (false, t)
  if p.2.isEmpty then none
  else if p.2.all Char.isDigit then
    let n : Nat := p.2.foldl (fun acc c => acc * 10 + (c.toNat - 48)) 0
    let v : Int := if p.1 then -(n : Int) else (n : Int)
    if -(2 ^ 63) ≤ v ∧ v ≤ 2 ^ 63 - 1 then some v else none
  else none

/-- Embeds `strings.Split(path, ".")` (src/mutations.go:291): cut at every
dot, keeping empty tokens; the empty string yields one empty token. -/
def splitSegs : List Char → List (List Char)
  | [] => [[]]
  | c :: t =>
      match splitSegs t with
      | [] => [[]]
      | s :: rest => if c = '.' then [] :: s :: rest else (c :: s) :: rest

/-- Path string to segment tokens. -/
def goSplitDot (s : String) : List String :=
  (splitSegs s.data).map fun cs => String.mk cs

/-- The `case "*"` arm of `walkTargets` (src/mutations.go:305-373): fan out
over the current array indices or object keys; on the terminal segment each
element is a target, otherwise descend into each element.  `go` is the
recursive descent into a child with the remaining segments.  Any other
container contributes no targets. -/
def wildLocs (go : Json → List Loc) : Json → Bool → List Loc
  | Json.arr v, true => (List.range v.length).map fun i => [Seg.idx i]
  | Json.arr v, false =>
      (List.range v.length).flatMap fun i =>
        ((v[i]?.elim [] go).map (Seg.idx i :: ·))
  | Json.obj es, true => es.map fun p => [Seg.key p.1]
  | Json.obj es, false =>
      es.flatMap fun p => (go p.2).map (Seg.key p.1 :: ·)
  | _, _ => []

/-- The numeric-segment arm of `walkTargets` (src/mutations.go:375-421):
requires the current container to be an array and the parsed index to be
non-negative; a terminal index is always addressable (so `set` can grow the
array), a non-terminal one must be in range to descend. -/
def idxLocs (go : Json → List Loc) : Json → Int → Bool → List Loc
  | Json.arr v, i, last =>
      if i < 0 then []
      else if last then [[Seg.idx i.toNat]]
      else (v[i.toNat]?).elim [] fun child => (go child).map (Seg.idx i.toNat :: ·)
  | _, _, _ => []

/-- The key-segment arm of `walkTargets` (src/mutations.go:422-449), reached
only when `strconv.Atoi` fails: requires the current container to be an
object; a terminal key is always addressable (so `set` can create it), a
non-terminal one must exist to descend. -/
def keyLocs (go : Json → List Loc) : Json → String → Bool → List Loc
  | Json.obj es, seg, last =>
      if last then [[Seg.key seg]]
      else (objLookup es seg).elim [] fun child => (go child).map (Seg.key seg :: ·)
  | _, _, _ => []

/-- Embeds `walkTargets` (src/mutations.go:295-453), returning the resolved
locations instead of closure bundles: dispatch on the first segment — the
wildcard arm, then the numeric arm when `strconv.Atoi` succeeds, the
literal-key arm otherwise. -/
def walkLocs : Json → List String → List Loc
  | _, [] => []
  | current, seg :: rest =>
      if seg = "*" then wildLocs (fun child => walkLocs child rest) current rest.isEmpty
      else
        (goAtoi seg).elim
          (keyLocs (fun child => walkLocs child rest) current seg rest.isEmpty)
          (fun i => idxLocs (fun child => walkLocs child rest) current i rest.isEmpty)

/-- Embeds `findTargets` (src/mutations.go:290-293). -/
def findLocs (t : Json) (path : String) : List Loc :=
  walkLocs t (goSplitDot path)

/-- Functional image of a resolved target's `get` closure: `none` both when
navigation fails and when the slot is absent (missing key, index out of
range), matching the Go closures' `(nil, false)`. -/
def getAt (t : Json) (loc : Loc) : Option Json :=
  match loc with
  | [] => some t
  | Seg.key k :: rest =>
      match t with
      | Json.obj es =>
          match objLookup es k with
          | some v => getAt v rest
          | none => none
      | _ => none
  | Seg.idx n :: rest =>
      match t with
      | Json.arr a =>
          match a[n]? with
          | some v => getAt v rest
          | none => none
      | _ => none

/-- Functional image of a resolved target's `set` closure.  At the terminal
step an object key is created or replaced, and an out-of-range array index
grows the array with nulls up to the index (src/mutations.go:378-404);
non-terminal steps rebuild the spine.  Steps that cannot be followed leave
the tree unchanged (unreachable for locations resolved on this tree). -/
def setAt (t : Json) (loc : Loc) (v : Json) : Json :=
  match loc with
  | [] => v
  | [Seg.key k] =>
      match t with
      | Json.obj es => Json.obj (objInsert es k v)
      | _ => t
  | [Seg.idx n] =>
      match t with
      | Json.arr a =>
          if n < a.length then Json.arr (a.set n v)
          else Json.arr (a ++ List.replicate (n - a.length) Json.null ++ [v])
      | _ => t
  | Seg.key k :: rest =>
      match t with
      | Json.obj es =>
          match objLookup es k with
          | some cur => Json.obj (objInsert es k (setAt cur rest v))
          | none => t
      | _ => t
  | Seg.idx n :: rest =>
      match t with
      | Json.arr a =>
          match a[n]? with
          | some cur => Json.arr (a.set n (setAt cur rest v))
          | none => t
      | _ => t

/-- Functional image of a resolved target's `del` closure: remove an object
key if present, remove an in-range array index compacting the array
(src/mutations.go:326-335, 358-367, 405-412); report whether anything was
removed. -/
def delAt (t : Json) (loc : Loc) : Json × Bool :=
  match loc with
  | [] => (t, false)
  | [Seg.key k] =>
      match t with
      | Json.obj es =>
          if (objLookup es k).isSome then (Json.obj (objErase es k), true)
          else (t, false)
      | _ => (t, false)
  | [Seg.idx n] =>
      match t with
      | Json.arr a =>
          if n < a.length then (Json.arr (a.eraseIdx n), true) else (t, false)
      | _ => (t, false)
  | Seg.key k :: rest =>
      match t with
      | Json.obj es =>
          match objLookup es k with
          | some cur =>
              let r := delAt cur rest
              (Json.obj (objInsert es k r.1), r.2)
          | none => (t, false)
      | _ => (t, false)
  | Seg.idx n :: rest =>
      match t with
      | Json.arr a =>
          match a[n]? with
          | some cur =>
              let r := delAt cur rest
              (Json.arr (a.set n r.1), r.2)
          | none => (t, false)
      | _ => (t, false)

/-- A compiled Go regular expression is external to this repository (stdlib
`regexp`); the engine calls exactly these three methods.  `M` is the opaque
match data (`FindStringSubmatchIndex` result). -/
structure GoRegex (M : Type) where
  matchString : String → Bool
  findSubmatch : String → Option M
  expandString : String → String → M → String

/-- Embeds `applySet` (src/mutations.go:135-144): no targets is a no-op
reporting false; otherwise every target is overwritten with a clone of the
value and true is reported. -/
def applySet (t : Json) (path : String) (value : Json) : Json × Bool :=
  let locs := findLocs t path
  if locs.isEmpty then (t, false)
  else (locs.foldl (fun acc loc => setAt acc loc (clone value)) t, true)

/-- One iteration of the `for k, v := range src` loop of `applyMerge`
(src/mutations.go:170-176): overwrite the destination key with a clone of
the source value unless it already holds a deep-equal value, recording
whether the key was written. -/
def mergeStep (acc : List (String × Json) × Bool) (p : String × Json) :
    List (String × Json) × Bool :=
  match objLookup acc.1 p.1 with
  | some cur =>
      if deepEqual cur p.2 then acc
      else (objInsert acc.1 p.1 (clone p.2), true)
  | none => (objInsert acc.1 p.1 (clone p.2), true)

/-- The whole source loop of `applyMerge` (src/mutations.go:170-176):
fold `mergeStep` over the source entries, starting unchanged. -/
def mergeInto (d : List (String × Json)) (src : List (String × Json)) :
    List (String × Json) × Bool :=
  src.foldl mergeStep (d, false)

/-- The per-target body of `applyMerge` (src/mutations.go:159-177).  An
absent or nil destination is first replaced by an empty object
(src/mutations.go:160-165); a non-object destination is skipped
(src/mutations.go:166-169); an object destination receives the source
entries.  The final `setAt` is issued only when a key was written, which is
observationally identical to Go's in-place map mutation (when no key is
written the merged map equals the old one). -/
def mergeTarget (src : List (String × Json)) (acc : Json × Bool) (loc : Loc) :
    Json × Bool :=
  match getAt acc.1 loc with
  | none =>
      let t1 := setAt acc.1 loc (Json.obj [])
      let r := mergeInto [] src
      (if r.2 then setAt t1 loc (Json.obj r.1) else t1, acc.2 || r.2)
  | some Json.null =>
      let t1 := setAt acc.1 loc (Json.obj [])
      let r := mergeInto [] src
      (if r.2 then setAt t1 loc (Json.obj r.1) else t1, acc.2 || r.2)
  | some (Json.obj d) =>
      let r := mergeInto d src
      (if r.2 then setAt acc.1 loc (Json.obj r.1) else acc.1, acc.2 || r.2)
  | some _ => acc

/-- Embeds `applyMerge` (src/mutations.go:147-180): resolve targets, return
`(tree, false)` when there are none, only then require the compiled value to
be an object (runtime error otherwise), then merge into every target. -/
def applyMerge (t : Json) (path : String) (value : Json) :
    Except String (Json × Bool) :=
  let locs := findLocs t path
  if locs.isEmpty then Except.ok (t, false)
  else
    match value with
    | Json.obj src => Except.ok (locs.foldl (mergeTarget src) (t, false))
    | _ => Except.error ("merge " ++ path ++ ": value must be an object")

/-- Embeds `applyDelete` (src/mutations.go:183-195): delete every target,
reporting whether any deletion removed something. -/
def applyDelete (t : Json) (path : String) : Json × Bool :=
  let locs := findLocs t path
  if locs.isEmpty then (t, false)
  else
    locs.foldl
      (fun acc loc =>
        let r := delAt acc.1 loc
        (r.1, acc.2 || r.2))
      (t, false)

/-- The element loop of `applyTransformArray` (src/mutations.go:216-236):
non-strings and non-matching strings pass through; a matching string
contributes one expanded output element per replacement template, and marks
the array changed. -/
def transformItems {M : Type} (re : GoRegex M) (repls : List String)
    (a : List Json) : List Json × Bool :=
  a.foldl
    (fun acc item =>
      match item with
      | Json.str s =>
          match re.findSubmatch s with
          | none => (acc.1 ++ [Json.str s], acc.2)
          | some m =>
              (acc.1 ++ repls.map fun tmpl => Json.str (re.expandString tmpl s m),
               true)
      | other => (acc.1 ++ [other], acc.2))
    ([], false)

/-- Embeds `applyTransformArray` (src/mutations.go:198-243): for every
target holding an array, rebuild it through `transformItems`, writing back
only when something matched; absent or non-array targets are skipped. -/
def applyTransformArray {M : Type} (t : Json) (path : String) (re : GoRegex M)
    (repls : List String) : Json × Bool :=
  let locs := findLocs t path
  if locs.isEmpty then (t, false)
  else
    locs.foldl
      (fun acc loc =>
        match getAt acc.1 loc with
        | some (Json.arr a) =>
            let r := transformItems re repls a
            (if r.2 then setAt acc.1 loc (Json.arr r.1) else acc.1, acc.2 || r.2)
        | _ => acc)
      (t, false)

/-- The source scan of `applyMergeIfMatch` (src/mutations.go:247-271): some
resolved source target holds an array containing a string element matching
the regex (Go short-circuits at the first hit; `List.any` has the same
value). -/
def sourceHasMatch {M : Type} (re : GoRegex M) (t : Json) (sourcePath : String) :
    Bool :=
  (findLocs t sourcePath).any fun loc =>
    match getAt t loc with
    | some (Json.arr a) =>
        a.any fun item =>
          match item with
          | Json.str s => re.matchString s
          | _ => false
    | _ => false

/-- Embeds `applyMergeIfMatch` (src/mutations.go:246-278): if no source
string matches, report `(tree, false)` untouched; otherwise delegate to
`applyMerge` on the target path. -/
def applyMergeIfMatch {M : Type} (t : Json) (sourcePath targetPath : String)
    (re : GoRegex M) (value : Json) : Except String (Json × Bool) :=
  if sourceHasMatch re t sourcePath then applyMerge t targetPath value
  else Except.ok (t, false)

/-- Embeds the value-validation arms of `Action.compile`
(src/mutations.go:36-94).  The raw `json.RawMessage` is modelled after the
external `json.Unmarshal` ran: `none` stands for an empty or unparseable
value, `some v` for a successfully decoded one.  Regex and `when`
compilation are performed by external collaborators (stdlib `regexp`, Caddy
CEL) and are outside this model.  Note the `"set", "merge"` arm
(src/mutations.go:38-46) accepts any decoded value, while only the
`"merge_if_match"` arm (src/mutations.go:72-78) rejects non-objects. -/
def compileActionValue (ty : String) (value : Option Json) :
    Except String (Option Json) :=
  match ty with
  | "set" => match value with
      | none => Except.error "empty or invalid value"
      | some v => Except.ok (some v)
  | "merge" => match value with
      | none => Except.error "empty or invalid value"
      | some v => Except.ok (some v)
  | "delete" => Except.ok none
  | "transform_array" => Except.ok none
  | "merge_if_match" => match value with
      | none => Except.error "invalid JSON value"
      | some v =>
          match v with
          | Json.obj _ => Except.ok (some v)
          | _ => Except.error "value must be an object"
  | _ => Except.error "unsupported action type"

/-- Capture data of the pixeldrain regex: group 1, the text after the fixed
prefix (group 0 is the whole input, since the pattern is anchored and ends
with a greedy capture to the end). -/
def pdPrefix : List Char := "https://pixeldrain.com/".data

/-- Remainder of `s` after a literal prefix, when the prefix matches. -/
def dropPrefixCh : List Char → List Char → Option (List Char)
  | [], s => some s
  | _ :: _, [] => none
  | p :: ps, c :: cs => if p = c then dropPrefixCh ps cs else none

/-- Go `re.ExpandString` restricted to templates whose group references are
a single digit followed by a non-word character or the end of the template —
true of the templates in the spec's example.  `g0` is the whole match, `g1`
the first capture group. -/
def expandPD (g0 g1 : String) : List Char → List Char
  | [] => []
  | '$' :: '0' :: rest => g0.data ++ expandPD g0 g1 rest
  | '$' :: '1' :: rest => g1.data ++ expandPD g0 g1 rest
  | c :: rest => c :: expandPD g0 g1 rest

/-- Model of the compiled regex `^https://pixeldrain\.com/(.*)` from the
spec's TransformArray example: it matches exactly the strings starting with
the literal prefix; group 0 is the whole string and group 1 the remainder
(the anchored greedy capture extends to the end). -/
def pixeldrainRegex : GoRegex String where
  matchString s := (dropPrefixCh pdPrefix s.data).isSome
  findSubmatch s :=
    match dropPrefixCh pdPrefix s.data with
    | some rest => some (String.mk rest)
    | none => none
  expandString tmpl s m := String.mk (expandPD s m tmpl.data)

/-- Proof-internal invariant: after a merge of `src` has processed the
target at `loc`, the slot either held a non-null non-object value (and was
skipped), or holds an object containing every source entry up to deep
equality. -/
def MergedAt (src : List (String × Json)) (t : Json) (loc : Loc) : Prop :=
  (∃ dv, getAt t loc = some dv ∧ dv ≠ Json.null ∧ ∀ es, dv ≠ Json.obj es)
  ∨ (∃ d, getAt t loc = some (Json.obj d)
      ∧ ∀ k v, (k, v) ∈ src → ∃ w, objLookup d k = some w ∧ deepEqual w v = true)

/-! ### General lemmas -/

theorem getAt_nil (t : Json) : getAt t [] = some t := rfl

theorem getAt_obj_cons (es : List (String × Json)) (k : String) (rest : Loc) :
    getAt (Json.obj es) (Seg.key k :: rest)
      = match objLookup es k with
        | some v => getAt v rest
        | none => none := by
  simp [getAt]

theorem getAt_arr_cons (a : List Json) (i : Nat) (rest : Loc) :
    getAt (Json.arr a) (Seg.idx i :: rest)
      = match a[i]? with
        | some v => getAt v rest
        | none => none := by
  simp [getAt]

theorem setAt_obj_cons (es : List (String × Json)) (k : String) (rest : Loc)
    (v cur : Json) (hl : objLookup es k = some cur) :
    setAt (Json.obj es) (Seg.key k :: rest) v
      = Json.obj (objInsert es k (setAt cur rest v)) := by
  cases rest with
  | nil => simp [setAt]
  | cons s rest' => simp [setAt, hl]

theorem setAt_arr_cons (a : List Json) (i : Nat) (rest : Loc) (v cur : Json)
    (hl : a[i]? = some cur) :
    setAt (Json.arr a) (Seg.idx i :: rest) v
      = Json.arr (a.set i (setAt cur rest v)) := by
  cases rest with
  | nil =>
      have hi : i < a.length := (List.getElem?_eq_some_iff.mp hl).1
      simp [setAt, hi]
  | cons s rest' => simp [setAt, hl]


theorem objLookup_objInsert_self (es : List (String × Json)) (k : String)
    (v : Json) : objLookup (objInsert es k v) k = some v := by
  induction es with
  | nil => simp [objInsert, objLookup]
  | cons p t ih =>
      by_cases h : p.1 = k
      · simp [objInsert, h, objLookup]
      · simp [objInsert, h, objLookup, ih]

theorem objLookup_objInsert_ne (es : List (String × Json)) (k k' : String)
    (v : Json) (h : k' ≠ k) :
    objLookup (objInsert es k v) k' = objLookup es k' := by
  induction es with
  | nil => simp [objInsert, objLookup, Ne.symm h]
  | cons p t ih =>
      by_cases hp : p.1 = k
      · simp [objInsert, hp, objLookup, Ne.symm h]
      · simp only [objInsert, hp, if_false, objLookup]
        by_cases hp' : p.1 = k'
        · simp [hp']
        · simp [hp', ih]

theorem objLookup_mem (es : List (String × Json)) (k : String) (v : Json)
    (h : objLookup es k = some v) : (k, v) ∈ es := by
  induction es with
  | nil => exact Option.noConfusion h
  | cons p t ih =>
      obtain ⟨pk, pv⟩ := p
      rw [objLookup] at h
      by_cases hp : pk = k
      · rw [if_pos hp] at h
        have hv := Option.some.inj h
        subst hp
        subst hv
        exact List.mem_cons_self _ _
      · rw [if_neg hp] at h
        exact List.mem_cons_of_mem _ (ih h)

theorem objLookup_none_forall (es : List (String × Json)) (k : String)
    (h : objLookup es k = none) : ∀ p ∈ es, p.1 ≠ k := by
  induction es with
  | nil => intro p hp; exact absurd hp (List.not_mem_nil p)
  | cons q t ih =>
      intro p hp
      rw [objLookup] at h
      by_cases hq : q.1 = k
      · rw [if_pos hq] at h; exact Option.noConfusion h
      · rw [if_neg hq] at h
        rcases List.mem_cons.mp hp with he | ht
        · rw [he]; exact hq
        · exact ih h p ht

theorem objLookup_of_mem_nodup (es : List (String × Json)) (k : String)
    (v : Json) (hnd : keysNodup es = true) (hm : (k, v) ∈ es) :
    objLookup es k = some v := by
  induction es with
  | nil => exact absurd hm (List.not_mem_nil _)
  | cons q t ih =>
      rw [keysNodup] at hnd
      have hnd1 := (Bool.and_eq_true _ _).mp hnd
      rcases List.mem_cons.mp hm with he | ht
      · rw [← he]
        simp [objLookup]
      · have hq : q.1 ≠ k := by
          intro e
          have : (objLookup t q.1).isSome = true := by
            rw [e, ih hnd1.2 ht]
            rfl
          rw [this] at hnd1
          exact Bool.noConfusion hnd1.1
        rw [objLookup, if_neg hq]
        exact ih hnd1.2 ht

theorem keysNodup_pairwise (es : List (String × Json))
    (h : keysNodup es = true) : es.Pairwise (fun p q => p.1 ≠ q.1) := by
  induction es with
  | nil => exact List.Pairwise.nil
  | cons q t ih =>
      rw [keysNodup] at h
      have h1 := (Bool.and_eq_true _ _).mp h
      refine List.Pairwise.cons ?_ (ih h1.2)
      intro p hp he
      have hn : objLookup t q.1 = none := by
        cases hl : objLookup t q.1 with
        | none => rfl
        | some w => rw [hl] at h1; exact Bool.noConfusion h1.1
      exact objLookup_none_forall t q.1 hn p hp he.symm

theorem keysNodup_objInsert (es : List (String × Json)) (k : String)
    (v : Json) (h : keysNodup es = true) :
    keysNodup (objInsert es k v) = true := by
  induction es with
  | nil => simp [objInsert, keysNodup, objLookup]
  | cons q t ih =>
      obtain ⟨qk, qv⟩ := q
      rw [keysNodup] at h
      have h1 := (Bool.and_eq_true _ _).mp h
      by_cases hq : qk = k
      · rw [objInsert]
        simp only [if_pos hq]
        rw [keysNodup, ← hq]
        exact h
      · rw [objInsert]
        simp only [if_neg hq]
        rw [keysNodup, objLookup_objInsert_ne t k qk v hq, Bool.and_eq_true]
        exact ⟨h1.1, ih h1.2⟩

theorem objInsert_eq_map (es : List (String × Json)) (k : String) (x : Json)
    (cur : Json) (hnd : keysNodup es = true)
    (hl : objLookup es k = some cur) :
    objInsert es k x = es.map fun p => if p.1 = k then (k, x) else p := by
  induction es with
  | nil => exact Option.noConfusion hl
  | cons q t ih =>
      rw [keysNodup] at hnd
      have h1 := (Bool.and_eq_true _ _).mp hnd
      by_cases hq : q.1 = k
      · have hn : objLookup t k = none := by
          rw [← hq]
          cases hl2 : objLookup t q.1 with
          | none => rfl
          | some w => rw [hl2] at h1; exact Bool.noConfusion h1.1
        have : ∀ p ∈ t, p.1 ≠ k := objLookup_none_forall t k hn
        rw [objInsert, if_pos hq, List.map_cons, if_pos hq]
        congr 1
        symm
        calc t.map (fun p => if p.1 = k then (k, x) else p) = t.map id := by
              apply List.map_congr_left
              intro p hp
              rw [if_neg (this p hp)]
              rfl
          _ = t := List.map_id t
      · rw [objLookup, if_neg hq] at hl
        rw [objInsert, if_neg hq, List.map_cons, if_neg hq, ih h1.2 hl]

theorem WFEntries_mem (es : List (String × Json)) (k : String) (v : Json)
    (h : WFEntries es = true) (hm : (k, v) ∈ es) : WF v = true := by
  induction es with
  | nil => exact absurd hm (List.not_mem_nil _)
  | cons q t ih =>
      obtain ⟨qk, qv⟩ := q
      rw [WFEntries, Bool.and_eq_true] at h
      rcases List.mem_cons.mp hm with he | ht
      · rw [((Prod.mk.injEq _ _ _ _).mp he).2]
        exact h.1
      · exact ih h.2 ht

theorem WFElems_mem (a : List Json) (v : Json)
    (h : WFElems a = true) (hm : v ∈ a) : WF v = true := by
  induction a with
  | nil => exact absurd hm (List.not_mem_nil _)
  | cons x t ih =>
      rw [WFElems, Bool.and_eq_true] at h
      rcases List.mem_cons.mp hm with he | ht
      · rw [he]; exact h.1
      · exact ih h.2 ht

theorem WF_obj_parts (es : List (String × Json)) (h : WF (Json.obj es) = true) :
    keysNodup es = true ∧ WFEntries es = true := by
  rw [WF, Bool.and_eq_true] at h
  exact h

theorem WF_arr_elems (a : List Json) (h : WF (Json.arr a) = true) :
    WFElems a = true := by
  rw [WF] at h
  exact h

theorem WFEntries_objInsert (es : List (String × Json)) (k : String) (v : Json)
    (h : WFEntries es = true) (hv : WF v = true) :
    WFEntries (objInsert es k v) = true := by
  induction es with
  | nil => simp [objInsert, WFEntries, hv]
  | cons q t ih =>
      obtain ⟨qk, qv⟩ := q
      rw [WFEntries, Bool.and_eq_true] at h
      by_cases hq : qk = k
      · rw [objInsert]
        simp only [if_pos hq]
        rw [WFEntries, Bool.and_eq_true]
        exact ⟨hv, h.2⟩
      · rw [objInsert]
        simp only [if_neg hq]
        rw [WFEntries, Bool.and_eq_true]
        exact ⟨h.1, ih h.2⟩

theorem WFElems_set (a : List Json) (n : Nat) (v : Json)
    (h : WFElems a = true) (hv : WF v = true) :
    WFElems (a.set n v) = true := by
  induction a generalizing n with
  | nil => simp [List.set]; exact h
  | cons x t ih =>
      rw [WFElems, Bool.and_eq_true] at h
      cases n with
      | zero =>
          rw [List.set_cons_zero, WFElems, Bool.and_eq_true]
          exact ⟨hv, h.2⟩
      | succ m =>
          rw [List.set_cons_succ, WFElems, Bool.and_eq_true]
          exact ⟨h.1, ih m h.2⟩

theorem WFElems_append (a b : List Json) :
    WFElems (a ++ b) = (WFElems a && WFElems b) := by
  induction a with
  | nil => simp [WFElems]
  | cons x t ih =>
      rw [List.cons_append, WFElems, ih, WFElems, Bool.and_assoc]

theorem WFElems_replicate_null (n : Nat) :
    WFElems (List.replicate n Json.null) = true := by
  induction n with
  | zero => rfl
  | succ m ih =>
      rw [List.replicate_succ, WFElems, ih]
      rfl

theorem WF_getAt (loc : Loc) (t v : Json)
    (hwf : WF t = true) (hget : getAt t loc = some v) : WF v = true := by
  induction loc generalizing t with
  | nil =>
      rw [getAt_nil] at hget
      rw [← Option.some.inj hget]
      exact hwf
  | cons s rest ih =>
      cases s with
      | key k =>
          cases t with
          | obj es =>
              rw [getAt_obj_cons] at hget
              cases hl : objLookup es k with
              | none => rw [hl] at hget; exact Option.noConfusion hget
              | some cur =>
                  rw [hl] at hget
                  have hcur : WF cur = true :=
                    WFEntries_mem es k cur (WF_obj_parts es hwf).2
                      (objLookup_mem es k cur hl)
                  exact ih cur hcur hget
          | null => exact Option.noConfusion hget
          | bool b => exact Option.noConfusion hget
          | num m => exact Option.noConfusion hget
          | str s => exact Option.noConfusion hget
          | arr l => exact Option.noConfusion hget
      | idx n =>
          cases t with
          | arr a =>
              rw [getAt_arr_cons] at hget
              cases hl : a[n]? with
              | none => rw [hl] at hget; exact Option.noConfusion hget
              | some cur =>
                  rw [hl] at hget
                  have hcur : WF cur = true :=
                    WFElems_mem a cur (WF_arr_elems a hwf)
                      (List.getElem?_mem hl)
                  exact ih cur hcur hget
          | null => exact Option.noConfusion hget
          | bool b => exact Option.noConfusion hget
          | num m => exact Option.noConfusion hget
          | str s => exact Option.noConfusion hget
          | obj es => exact Option.noConfusion hget

theorem WF_setAt (loc : Loc) (t v : Json)
    (hwf : WF t = true) (hv : WF v = true) : WF (setAt t loc v) = true := by
  induction loc generalizing t with
  | nil => exact hv
  | cons s rest ih =>
      cases rest with
      | nil =>
          cases s with
          | key k =>
              cases t with
              | obj es =>
                  have hp := WF_obj_parts es hwf
                  simp only [setAt]
                  rw [WF, Bool.and_eq_true]
                  exact ⟨keysNodup_objInsert es k v hp.1,
                    WFEntries_objInsert es k v hp.2 hv⟩
              | null => exact hwf
              | bool b => exact hwf
              | num m => exact hwf
              | str s => exact hwf
              | arr a => exact hwf
          | idx n =>
              cases t with
              | arr a =>
                  have ha := WF_arr_elems a hwf
                  simp only [setAt]
                  by_cases hn : n < a.length
                  · rw [if_pos hn, WF]
                    exact WFElems_set a n v ha hv
                  · rw [if_neg hn, WF, WFElems_append, WFElems_append]
                    rw [ha, WFElems_replicate_null, WFElems, hv]
                    rfl
              | null => exact hwf
              | bool b => exact hwf
              | num m => exact hwf
              | str s => exact hwf
              | obj es => exact hwf
      | cons s2 rest2 =>
          cases s with
          | key k =>
              cases t with
              | obj es =>
                  have hp := WF_obj_parts es hwf
                  cases hl : objLookup es k with
                  | none => simp only [setAt, hl]; exact hwf
                  | some cur =>
                      simp only [setAt, hl]
                      have hcur : WF cur = true :=
                        WFEntries_mem es k cur hp.2 (objLookup_mem es k cur hl)
                      rw [WF, Bool.and_eq_true]
                      exact ⟨keysNodup_objInsert es k _ hp.1,
                        WFEntries_objInsert es k _ hp.2 (ih cur hcur)⟩
              | null => exact hwf
              | bool b => exact hwf
              | num m => exact hwf
              | str s => exact hwf
              | arr a => exact hwf
          | idx n =>
              cases t with
              | arr a =>
                  have ha := WF_arr_elems a hwf
                  cases hl : a[n]? with
                  | none => simp only [setAt, hl]; exact hwf
                  | some cur =>
                      simp only [setAt, hl]
                      have hcur : WF cur = true :=
                        WFElems_mem a cur ha (List.getElem?_mem hl)
                      rw [WF]
                      exact WFElems_set a n _ ha (ih cur hcur)
              | null => exact hwf
              | bool b => exact hwf
              | num m => exact hwf
              | str s => exact hwf
              | obj es => exact hwf

mutual
theorem clone_id : ∀ j : Json, clone j = j
  | Json.null => rfl
  | Json.bool _ => rfl
  | Json.num _ => rfl
  | Json.str _ => rfl
  | Json.arr a => by
      rw [show clone (Json.arr a) = Json.arr (cloneElems a) from rfl,
        cloneElems_id a]
  | Json.obj es => by
      rw [show clone (Json.obj es) = Json.obj (cloneEntries es) from rfl,
        cloneEntries_id es]

theorem cloneEntries_id : ∀ es : List (String × Json), cloneEntries es = es
  | [] => rfl
  | (k, v) :: t => by
      rw [show cloneEntries ((k, v) :: t) = (k, clone v) :: cloneEntries t
        from rfl, clone_id v, cloneEntries_id t]

theorem cloneElems_id : ∀ a : List Json, cloneElems a = a
  | [] => rfl
  | v :: t => by
      rw [show cloneElems (v :: t) = clone v :: cloneElems t from rfl,
        clone_id v, cloneElems_id t]
end

mutual
theorem deepEqual_refl : ∀ j : Json, WF j = true → deepEqual j j = true
  | Json.null, _ => rfl
  | Json.bool b, _ => by simp [deepEqual, scalarEq]
  | Json.num n, _ => by simp [deepEqual, scalarEq]
  | Json.str s, _ => by simp [deepEqual, scalarEq]
  | Json.arr a, h => by
      rw [show deepEqual (Json.arr a) (Json.arr a)
          = (a.length == a.length && deepEqualElems a a) from rfl]
      rw [deepEqualElems_refl a (WF_arr_elems a h)]
      simp
  | Json.obj es, h => by
      rw [show deepEqual (Json.obj es) (Json.obj es)
          = (es.length == es.length && deepEqualEntries es es) from rfl]
      have hp := WF_obj_parts es h
      rw [deepEqualEntries_sub es es
        (fun k v hm => ⟨objLookup_of_mem_nodup es k v hp.1 hm,
          WFEntries_mem es k v hp.2 hm⟩)]
      simp

theorem deepEqualEntries_sub :
    ∀ (es b : List (String × Json)),
      (∀ k v, (k, v) ∈ es → objLookup b k = some v ∧ WF v = true) →
      deepEqualEntries es b = true
  | [], _, _ => rfl
  | (k, v) :: t, b, h => by
      rw [show deepEqualEntries ((k, v) :: t) b
          = (deepEqual v (objLookupD b k) && deepEqualEntries t b) from rfl]
      have hh := h k v (List.mem_cons_self _ _)
      rw [show objLookupD b k = (objLookup b k).getD Json.null from rfl,
        hh.1, Option.getD_some, deepEqual_refl v hh.2,
        deepEqualEntries_sub t b (fun k2 v2 hm => h k2 v2 (List.mem_cons_of_mem _ hm))]
      rfl

theorem deepEqualElems_refl : ∀ a : List Json, WFElems a = true →
    deepEqualElems a a = true
  | [], _ => rfl
  | x :: t, h => by
      rw [show deepEqualElems (x :: t) (x :: t)
          = (deepEqual x x && deepEqualElems t t) from rfl]
      rw [WFElems, Bool.and_eq_true] at h
      rw [deepEqual_refl x h.1, deepEqualElems_refl t h.2]
      rfl
end

theorem deepEqualEntries_eq_all (a b : List (String × Json)) :
    deepEqualEntries a b = a.all fun p => deepEqual p.2 (objLookupD b p.1) := by
  induction a with
  | nil => rfl
  | cons p t ih => cases p with
    | mk k v => simp [deepEqualEntries, ih, List.all_cons]

theorem deepEqualElems_eq_zip_all (a b : List Json) (h : a.length = b.length) :
    deepEqualElems a b = (a.zip b).all fun p => deepEqual p.1 p.2 := by
  induction a generalizing b with
  | nil => cases b with
    | nil => rfl
    | cons y ys => simp at h
  | cons x xs ih =>
    cases b with
    | nil => simp at h
    | cons y ys =>
      simp only [List.length_cons, Nat.succ.injEq] at h
      simp [deepEqualElems, List.zip_cons_cons, List.all_cons, ih ys h]

theorem transformItems_foldl {M : Type} (re : GoRegex M) (repls : List String)
    (a : List Json) (out : List Json) (ch : Bool) :
    (a.foldl
      (fun acc item =>
        match item with
        | Json.str s =>
            match re.findSubmatch s with
            | none => (acc.1 ++ [Json.str s], acc.2)
            | some m =>
                (acc.1 ++ repls.map fun tmpl => Json.str (re.expandString tmpl s m),
                 true)
        | other => (acc.1 ++ [other], acc.2)) (out, ch)).1
      = out ++ (a.flatMap fun item =>
          match item with
          | Json.str s =>
              match re.findSubmatch s with
              | none => [Json.str s]
              | some m => repls.map fun tmpl => Json.str (re.expandString tmpl s m)
          | other => [other]) := by
  induction a generalizing out ch with
  | nil => simp
  | cons x xs ih =>
    cases x with
    | str s =>
        simp only [List.foldl_cons, List.flatMap_cons]
        cases hf : re.findSubmatch s with
        | none => rw [ih]; simp
        | some m => rw [ih]; simp
    | null => simp only [List.foldl_cons, List.flatMap_cons]; rw [ih]; simp
    | bool b => simp only [List.foldl_cons, List.flatMap_cons]; rw [ih]; simp
    | num n => simp only [List.foldl_cons, List.flatMap_cons]; rw [ih]; simp
    | arr l => simp only [List.foldl_cons, List.flatMap_cons]; rw [ih]; simp
    | obj l => simp only [List.foldl_cons, List.flatMap_cons]; rw [ih]; simp

theorem mergeStep_lookup_ne (d : List (String × Json)) (ch : Bool)
    (p : String × Json) (k0 : String) (hne : p.1 ≠ k0) :
    objLookup (mergeStep (d, ch) p).1 k0 = objLookup d k0 := by
  unfold mergeStep
  cases hl : objLookup d p.1 with
  | some cur =>
      by_cases hde : deepEqual cur p.2 = true
      · simp [hde]
      · simp only [Bool.not_eq_true] at hde
        simp [hde, objLookup_objInsert_ne d p.1 k0 _ (Ne.symm hne)]
  | none => simp [objLookup_objInsert_ne d p.1 k0 _ (Ne.symm hne)]

theorem mergeFold_lookup_notin (src : List (String × Json)) :
    ∀ (d : List (String × Json)) (ch : Bool) (k0 : String),
      (∀ p ∈ src, p.1 ≠ k0) →
      objLookup (src.foldl mergeStep (d, ch)).1 k0 = objLookup d k0 := by
  induction src with
  | nil => intro d ch k0 _; rfl
  | cons p t ih =>
      intro d ch k0 hk
      rcases hmp : mergeStep (d, ch) p with ⟨d', ch'⟩
      rw [List.foldl_cons, hmp,
        ih d' ch' k0 (fun q hq => hk q (List.mem_cons_of_mem _ hq))]
      have := mergeStep_lookup_ne d ch p k0 (hk p (List.mem_cons_self _ _))
      rw [hmp] at this
      exact this

theorem mergeFold_lookup_mem (src : List (String × Json)) :
    ∀ (d : List (String × Json)) (ch : Bool) (k0 : String) (v0 : Json),
      keysNodup src = true → WFEntries src = true → (k0, v0) ∈ src →
      ∃ w, objLookup (src.foldl mergeStep (d, ch)).1 k0 = some w
        ∧ deepEqual w v0 = true := by
  induction src with
  | nil => intro d ch k0 v0 _ _ hm; exact absurd hm (List.not_mem_nil _)
  | cons p t ih =>
      intro d ch k0 v0 hnd hwf hm
      obtain ⟨k, v⟩ := p
      rw [keysNodup] at hnd
      have hnd1 := (Bool.and_eq_true _ _).mp hnd
      rw [WFEntries, Bool.and_eq_true] at hwf
      have htk : objLookup t k = none := by
        cases hl : objLookup t k with
        | none => rfl
        | some w => rw [hl] at hnd1; exact Bool.noConfusion hnd1.1
      rcases List.mem_cons.mp hm with he | ht
      · have hk0 : k0 = k := ((Prod.mk.injEq _ _ _ _).mp he).1
        have hv0 : v0 = v := ((Prod.mk.injEq _ _ _ _).mp he).2
        subst hk0
        subst hv0
        have hnotin : ∀ q ∈ t, q.1 ≠ k0 :=
          objLookup_none_forall t k0 htk
        rw [List.foldl_cons]
        rcases hmp : mergeStep (d, ch) (k0, v0) with ⟨d', ch'⟩
        rw [mergeFold_lookup_notin t d' ch' k0 hnotin]
        unfold mergeStep at hmp
        cases hl : objLookup d k0 with
        | some cur =>
            rw [hl] at hmp
            by_cases hde : deepEqual cur v0 = true
            · simp only [hde, if_true] at hmp
              have hd' : d' = d := ((Prod.mk.injEq _ _ _ _).mp hmp.symm).1
              rw [hd', hl]
              exact ⟨cur, rfl, hde⟩
            · simp only [Bool.not_eq_true] at hde
              simp only [hde, Bool.false_eq_true, if_false] at hmp
              have hd' : d' = objInsert d k0 (clone v0) :=
                ((Prod.mk.injEq _ _ _ _).mp hmp.symm).1
              rw [hd', objLookup_objInsert_self]
              refine ⟨clone v0, rfl, ?_⟩
              rw [clone_id v0]
              exact deepEqual_refl v0 hwf.1
        | none =>
            rw [hl] at hmp
            have hd' : d' = objInsert d k0 (clone v0) :=
              ((Prod.mk.injEq _ _ _ _).mp hmp.symm).1
            rw [hd', objLookup_objInsert_self]
            refine ⟨clone v0, rfl, ?_⟩
            rw [clone_id v0]
            exact deepEqual_refl v0 hwf.1
      · rw [List.foldl_cons]
        rcases hmp : mergeStep (d, ch) (k, v) with ⟨d', ch'⟩
        exact ih d' ch' k0 v0 hnd1.2 hwf.2 ht

theorem mergeFold_noop (src : List (String × Json)) :
    ∀ (d : List (String × Json)) (ch : Bool),
      (∀ k v, (k, v) ∈ src →
        ∃ cur, objLookup d k = some cur ∧ deepEqual cur v = true) →
      src.foldl mergeStep (d, ch) = (d, ch) := by
  induction src with
  | nil => intro d ch _; rfl
  | cons p t ih =>
      intro d ch h
      obtain ⟨k, v⟩ := p
      obtain ⟨cur, hl, hde⟩ := h k v (List.mem_cons_self _ _)
      have hstep : mergeStep (d, ch) (k, v) = (d, ch) := by
        unfold mergeStep
        simp [hl, hde]
      rw [List.foldl_cons, hstep]
      exact ih d ch (fun k2 v2 hm => h k2 v2 (List.mem_cons_of_mem _ hm))

theorem mergeFold_flag_mono (src : List (String × Json)) :
    ∀ d : List (String × Json), (src.foldl mergeStep (d, true)).2 = true := by
  induction src with
  | nil => intro d; rfl
  | cons p t ih =>
      intro d
      rw [List.foldl_cons]
      have : ∃ d', mergeStep (d, true) p = (d', true) := by
        unfold mergeStep
        cases hl : objLookup d p.1 with
        | some cur =>
            by_cases hde : deepEqual cur p.2 = true
            · exact ⟨d, by simp [hde]⟩
            · simp only [Bool.not_eq_true] at hde
              exact ⟨objInsert d p.1 (clone p.2), by simp [hde]⟩
        | none => exact ⟨objInsert d p.1 (clone p.2), by simp⟩
      obtain ⟨d', hd'⟩ := this
      rw [hd']
      exact ih d'

theorem mergeFold_false (src : List (String × Json)) :
    ∀ (d : List (String × Json)) (ch : Bool),
      (src.foldl mergeStep (d, ch)).2 = false →
      (src.foldl mergeStep (d, ch)).1 = d
      ∧ ∀ k v, (k, v) ∈ src →
          ∃ cur, objLookup d k = some cur ∧ deepEqual cur v = true := by
  induction src with
  | nil =>
      intro d ch _
      exact ⟨rfl, fun k v hm => absurd hm (List.not_mem_nil _)⟩
  | cons p t ih =>
      intro d ch h
      obtain ⟨k, v⟩ := p
      rw [List.foldl_cons] at h ⊢
      cases hl : objLookup d k with
      | some cur =>
          by_cases hde : deepEqual cur v = true
          · have hstep : mergeStep (d, ch) (k, v) = (d, ch) := by
              unfold mergeStep
              simp [hl, hde]
            rw [hstep] at h ⊢
            obtain ⟨h1, h2⟩ := ih d ch h
            refine ⟨h1, fun k2 v2 hm => ?_⟩
            rcases List.mem_cons.mp hm with he | ht
            · have hk2 : k2 = k := ((Prod.mk.injEq _ _ _ _).mp he).1
              have hv2 : v2 = v := ((Prod.mk.injEq _ _ _ _).mp he).2
              subst hk2
              subst hv2
              exact ⟨cur, hl, hde⟩
            · exact h2 k2 v2 ht
          · exfalso
            simp only [Bool.not_eq_true] at hde
            have hstep : mergeStep (d, ch) (k, v)
                = (objInsert d k (clone v), true) := by
              unfold mergeStep
              simp [hl, hde]
            rw [hstep, mergeFold_flag_mono t _] at h
            exact Bool.noConfusion h
      | none =>
          exfalso
          have hstep : mergeStep (d, ch) (k, v)
              = (objInsert d k (clone v), true) := by
            unfold mergeStep
            simp [hl]
          rw [hstep, mergeFold_flag_mono t _] at h
          exact Bool.noConfusion h

theorem walkLocs_nil (t : Json) : walkLocs t [] = [] := rfl

theorem walkLocs_cons (t : Json) (seg : String) (rest : List String) :
    walkLocs t (seg :: rest)
      = if seg = "*" then
          wildLocs (fun child => walkLocs child rest) t rest.isEmpty
        else
          (goAtoi seg).elim
            (keyLocs (fun child => walkLocs child rest) t seg rest.isEmpty)
            (fun i => idxLocs (fun child => walkLocs child rest) t i
              rest.isEmpty) := rfl

theorem getAt_setAt_self (segs : List String) :
    ∀ (t : Json) (loc : Loc) (v : Json), WF t = true →
      loc ∈ walkLocs t segs → getAt (setAt t loc v) loc = some v := by
  induction segs with
  | nil =>
      intro t loc v _ h
      rw [walkLocs_nil] at h
      exact absurd h (List.not_mem_nil _)
  | cons seg rest ih =>
      intro t loc v hwf hmem
      rw [walkLocs_cons] at hmem
      by_cases hs : seg = "*"
      · rw [if_pos hs] at hmem
        cases t with
        | arr a =>
            have ha := WF_arr_elems a hwf
            cases rest with
            | nil =>
                simp only [List.isEmpty_nil, wildLocs, List.mem_map,
                  List.mem_range] at hmem
                obtain ⟨i, hi, hloc⟩ := hmem
                subst hloc
                simp only [setAt, if_pos hi]
                rw [getAt_arr_cons, List.getElem?_set_self hi]
                rfl
            | cons r rs =>
                simp only [List.isEmpty_cons, wildLocs,
                  List.mem_flatMap, List.mem_map, List.mem_range] at hmem
                obtain ⟨i, hi, l', hl', hloc⟩ := hmem
                subst hloc
                have hchild : a[i]? = some a[i] := List.getElem?_eq_getElem hi
                rw [hchild] at hl'
                simp only [Option.elim_some] at hl'
                rw [setAt_arr_cons a i l' v _ hchild, getAt_arr_cons,
                  List.getElem?_set_self (by simpa using hi)]
                exact ih a[i] l' v (WFElems_mem a _ ha (List.getElem?_mem hchild)) hl'
        | obj es =>
            have hp := WF_obj_parts es hwf
            cases rest with
            | nil =>
                simp only [List.isEmpty_nil, wildLocs, List.mem_map] at hmem
                obtain ⟨p, hpmem, hloc⟩ := hmem
                subst hloc
                simp only [setAt]
                rw [getAt_obj_cons, objLookup_objInsert_self]
                rfl
            | cons r rs =>
                simp only [List.isEmpty_cons, wildLocs,
                  List.mem_flatMap, List.mem_map] at hmem
                obtain ⟨p, hpmem, l', hl', hloc⟩ := hmem
                subst hloc
                have hlk : objLookup es p.1 = some p.2 :=
                  objLookup_of_mem_nodup es p.1 p.2 hp.1
                    (by rw [show (p.1, p.2) = p from rfl]; exact hpmem)
                rw [setAt_obj_cons es p.1 l' v p.2 hlk, getAt_obj_cons,
                  objLookup_objInsert_self]
                exact ih p.2 l' v (WFEntries_mem es p.1 p.2 hp.2
                  (by rw [show (p.1, p.2) = p from rfl]; exact hpmem)) hl'
        | null => simp [wildLocs] at hmem
        | bool b => simp [wildLocs] at hmem
        | num n => simp [wildLocs] at hmem
        | str s => simp [wildLocs] at hmem
      · rw [if_neg hs] at hmem
        cases hai : goAtoi seg with
        | some i =>
            rw [hai] at hmem
            simp only [Option.elim_some] at hmem
            cases t with
            | arr a =>
                have ha := WF_arr_elems a hwf
                by_cases hineg : i < 0
                · simp [idxLocs, hineg] at hmem
                · cases rest with
                  | nil =>
                      simp only [idxLocs, if_neg hineg, List.isEmpty_nil,
                        if_true, List.mem_singleton] at hmem
                      subst hmem
                      simp only [setAt]
                      by_cases hn : i.toNat < a.length
                      · rw [if_pos hn, getAt_arr_cons,
                          List.getElem?_set_self hn]
                        rfl
                      · rw [if_neg hn, getAt_arr_cons]
                        have hlen : (a ++ List.replicate (i.toNat - a.length)
                            Json.null).length = i.toNat := by
                          simp [List.length_append, List.length_replicate]
                          omega
                        rw [List.getElem?_append_right (by omega), hlen]
                        simp only [Nat.sub_self, List.getElem?_cons_zero]
                        rfl
                  | cons r rs =>
                      simp only [idxLocs, if_neg hineg, List.isEmpty_cons,
                        if_false] at hmem
                      cases hchild : a[i.toNat]? with
                      | none => rw [hchild] at hmem; simp at hmem
                      | some child =>
                          rw [hchild] at hmem
                          obtain ⟨l', hl', hloc⟩ := List.mem_map.mp hmem
                          subst hloc
                          have hn : i.toNat < a.length :=
                            (List.getElem?_eq_some_iff.mp hchild).1
                          rw [setAt_arr_cons a i.toNat l' v child hchild,
                            getAt_arr_cons, List.getElem?_set_self (by simpa using hn)]
                          exact ih child l' v
                            (WFElems_mem a child ha (List.getElem?_mem hchild)) hl'
            | obj es => simp [idxLocs] at hmem
            | null => simp [idxLocs] at hmem
            | bool b => simp [idxLocs] at hmem
            | num n => simp [idxLocs] at hmem
            | str s => simp [idxLocs] at hmem
        | none =>
            rw [hai] at hmem
            simp only [Option.elim_none] at hmem
            cases t with
            | obj es =>
                have hp := WF_obj_parts es hwf
                cases rest with
                | nil =>
                    simp only [keyLocs, List.isEmpty_nil, if_true,
                      List.mem_singleton] at hmem
                    subst hmem
                    simp only [setAt]
                    rw [getAt_obj_cons, objLookup_objInsert_self]
                    rfl
                | cons r rs =>
                    simp only [keyLocs, List.isEmpty_cons, if_false] at hmem
                    cases hchild : objLookup es seg with
                    | none => rw [hchild] at hmem; simp at hmem
                    | some child =>
                        rw [hchild] at hmem
                        obtain ⟨l', hl', hloc⟩ := List.mem_map.mp hmem
                        subst hloc
                        rw [setAt_obj_cons es seg l' v child hchild,
                          getAt_obj_cons, objLookup_objInsert_self]
                        exact ih child l' v
                          (WFEntries_mem es seg child hp.2
                            (objLookup_mem es seg child hchild)) hl'
            | arr a => simp [keyLocs] at hmem
            | null => simp [keyLocs] at hmem
            | bool b => simp [keyLocs] at hmem
            | num n => simp [keyLocs] at hmem
            | str s => simp [keyLocs] at hmem

theorem flatMap_congr_mem {α β : Type _} (l : List α) (f g : α → List β)
    (h : ∀ a ∈ l, f a = g a) : l.flatMap f = l.flatMap g := by
  induction l with
  | nil => rfl
  | cons x t ih =>
      rw [List.flatMap_cons, List.flatMap_cons,
        h x (List.mem_cons_self _ _),
        ih (fun a ha => h a (List.mem_cons_of_mem _ ha))]

theorem walkLocs_setAt (segs : List String) :
    ∀ (t : Json) (loc : Loc) (v : Json), WF t = true →
      loc ∈ walkLocs t segs →
      walkLocs (setAt t loc v) segs = walkLocs t segs := by
  induction segs with
  | nil => intro t loc v _ _; rw [walkLocs_nil, walkLocs_nil]
  | cons seg rest ih =>
      intro t loc v hwf hmem
      rw [walkLocs_cons] at hmem
      by_cases hs : seg = "*"
      · rw [if_pos hs] at hmem
        cases t with
        | arr a =>
            have ha := WF_arr_elems a hwf
            cases rest with
            | nil =>
                simp only [List.isEmpty_nil, wildLocs, List.mem_map,
                  List.mem_range] at hmem
                obtain ⟨i, hi, hloc⟩ := hmem
                subst hloc
                simp only [setAt, if_pos hi]
                rw [walkLocs_cons, walkLocs_cons, if_pos hs, if_pos hs]
                simp [wildLocs, List.length_set]
            | cons r rs =>
                simp only [List.isEmpty_cons, wildLocs,
                  List.mem_flatMap, List.mem_map, List.mem_range] at hmem
                obtain ⟨i, hi, l', hl', hloc⟩ := hmem
                subst hloc
                have hchild : a[i]? = some a[i] := List.getElem?_eq_getElem hi
                rw [hchild] at hl'
                simp only [Option.elim_some] at hl'
                rw [setAt_arr_cons a i l' v _ hchild,
                  walkLocs_cons, walkLocs_cons, if_pos hs, if_pos hs]
                simp only [wildLocs, List.isEmpty_cons, List.length_set]
                refine flatMap_congr_mem _ _ _ ?_
                intro j hj
                by_cases hij : j = i
                · subst hij
                  rw [List.getElem?_set_self (by simpa using hi), hchild]
                  simp only [Option.elim_some]
                  rw [ih a[j] l' v
                    (WFElems_mem a _ ha (List.getElem?_mem hchild)) hl']
                · rw [List.getElem?_set_ne (fun e => hij e.symm)]
        | obj es =>
            have hp := WF_obj_parts es hwf
            cases rest with
            | nil =>
                simp only [List.isEmpty_nil, wildLocs, List.mem_map] at hmem
                obtain ⟨p, hpmem, hloc⟩ := hmem
                subst hloc
                have hlk : objLookup es p.1 = some p.2 :=
                  objLookup_of_mem_nodup es p.1 p.2 hp.1
                    (by rw [show (p.1, p.2) = p from rfl]; exact hpmem)
                simp only [setAt]
                rw [walkLocs_cons, walkLocs_cons, if_pos hs, if_pos hs]
                simp only [wildLocs, List.isEmpty_nil]
                rw [objInsert_eq_map es p.1 v p.2 hp.1 hlk, List.map_map]
                refine List.map_congr_left ?_
                intro q hq
                by_cases hqk : q.1 = p.1
                · simp [Function.comp, hqk]
                · simp [Function.comp, hqk]
            | cons r rs =>
                simp only [List.isEmpty_cons, wildLocs,
                  List.mem_flatMap, List.mem_map] at hmem
                obtain ⟨p, hpmem, l', hl', hloc⟩ := hmem
                subst hloc
                have hlk : objLookup es p.1 = some p.2 :=
                  objLookup_of_mem_nodup es p.1 p.2 hp.1
                    (by rw [show (p.1, p.2) = p from rfl]; exact hpmem)
                rw [setAt_obj_cons es p.1 l' v p.2 hlk,
                  walkLocs_cons, walkLocs_cons, if_pos hs, if_pos hs]
                simp only [wildLocs, List.isEmpty_cons]
                rw [objInsert_eq_map es p.1 (setAt p.2 l' v) p.2 hp.1 hlk,
                  List.flatMap_map]
                refine flatMap_congr_mem _ _ _ ?_
                intro q hq
                by_cases hqk : q.1 = p.1
                · have hq2 : q.2 = p.2 := by
                    have := objLookup_of_mem_nodup es q.1 q.2 hp.1
                      (by rw [show (q.1, q.2) = q from rfl]; exact hq)
                    rw [hqk, hlk] at this
                    exact (Option.some.inj this).symm
                  rw [if_pos hqk, ih p.2 l' v
                    (WFEntries_mem es p.1 p.2 hp.2
                      (by rw [show (p.1, p.2) = p from rfl]; exact hpmem)) hl',
                    hqk, hq2]
                · rw [if_neg hqk]
        | null => simp [wildLocs] at hmem
        | bool b => simp [wildLocs] at hmem
        | num n => simp [wildLocs] at hmem
        | str s => simp [wildLocs] at hmem
      · rw [if_neg hs] at hmem
        cases hai : goAtoi seg with
        | some i =>
            rw [hai] at hmem
            simp only [Option.elim_some] at hmem
            cases t with
            | arr a =>
                have ha := WF_arr_elems a hwf
                by_cases hineg : i < 0
                · simp [idxLocs, hineg] at hmem
                · cases rest with
                  | nil =>
                      simp only [idxLocs, if_neg hineg, List.isEmpty_nil,
                        if_true, List.mem_singleton] at hmem
                      subst hmem
                      simp only [setAt]
                      by_cases hn : i.toNat < a.length
                      · rw [if_pos hn, walkLocs_cons, walkLocs_cons,
                          if_neg hs, if_neg hs, hai]
                        simp [idxLocs, hineg]
                      · rw [if_neg hn, walkLocs_cons, walkLocs_cons,
                          if_neg hs, if_neg hs, hai]
                        simp [idxLocs, hineg]
                  | cons r rs =>
                      simp only [idxLocs, if_neg hineg, List.isEmpty_cons,
                        if_false] at hmem
                      cases hchild : a[i.toNat]? with
                      | none => rw [hchild] at hmem; simp at hmem
                      | some child =>
                          rw [hchild] at hmem
                          obtain ⟨l', hl', hloc⟩ := List.mem_map.mp hmem
                          subst hloc
                          have hn : i.toNat < a.length :=
                            (List.getElem?_eq_some_iff.mp hchild).1
                          rw [setAt_arr_cons a i.toNat l' v child hchild,
                            walkLocs_cons, walkLocs_cons, if_neg hs, if_neg hs,
                            hai]
                          simp only [Option.elim_some, idxLocs, if_neg hineg,
                            List.isEmpty_cons, if_false]
                          rw [List.getElem?_set_self (by simpa using hn), hchild]
                          simp only [Option.elim_some]
                          rw [ih child l' v
                            (WFElems_mem a child ha (List.getElem?_mem hchild))
                            hl']
            | obj es => simp [idxLocs] at hmem
            | null => simp [idxLocs] at hmem
            | bool b => simp [idxLocs] at hmem
            | num n => simp [idxLocs] at hmem
            | str s => simp [idxLocs] at hmem
        | none =>
            rw [hai] at hmem
            simp only [Option.elim_none] at hmem
            cases t with
            | obj es =>
                have hp := WF_obj_parts es hwf
                cases rest with
                | nil =>
                    simp only [keyLocs, List.isEmpty_nil, if_true,
                      List.mem_singleton] at hmem
                    subst hmem
                    simp only [setAt]
                    rw [walkLocs_cons, walkLocs_cons, if_neg hs, if_neg hs, hai]
                    simp [keyLocs]
                | cons r rs =>
                    simp only [keyLocs, List.isEmpty_cons, if_false] at hmem
                    cases hchild : objLookup es seg with
                    | none => rw [hchild] at hmem; simp at hmem
                    | some child =>
                        rw [hchild] at hmem
                        obtain ⟨l', hl', hloc⟩ := List.mem_map.mp hmem
                        subst hloc
                        rw [setAt_obj_cons es seg l' v child hchild,
                          walkLocs_cons, walkLocs_cons, if_neg hs, if_neg hs,
                          hai]
                        simp only [Option.elim_none, keyLocs,
                          List.isEmpty_cons, if_false]
                        rw [objLookup_objInsert_self, hchild]
                        simp only [Option.elim_some]
                        rw [ih child l' v
                          (WFEntries_mem es seg child hp.2
                            (objLookup_mem es seg child hchild)) hl']
            | arr a => simp [keyLocs] at hmem
            | null => simp [keyLocs] at hmem
            | bool b => simp [keyLocs] at hmem
            | num n => simp [keyLocs] at hmem
            | str s => simp [keyLocs] at hmem

theorem getAt_setAt_ne (segs : List String) :
    ∀ (t : Json) (loc1 loc2 : Loc) (v : Json), WF t = true →
      loc1 ∈ walkLocs t segs → loc2 ∈ walkLocs t segs → loc1 ≠ loc2 →
      getAt (setAt t loc1 v) loc2 = getAt t loc2 := by
  induction segs with
  | nil =>
      intro t loc1 loc2 v _ h1 _ _
      rw [walkLocs_nil] at h1
      exact absurd h1 (List.not_mem_nil _)
  | cons seg rest ih =>
      intro t loc1 loc2 v hwf h1 h2 hne
      rw [walkLocs_cons] at h1 h2
      by_cases hs : seg = "*"
      · rw [if_pos hs] at h1 h2
        cases t with
        | arr a =>
            have ha := WF_arr_elems a hwf
            cases rest with
            | nil =>
                simp only [List.isEmpty_nil, wildLocs, List.mem_map,
                  List.mem_range] at h1 h2
                obtain ⟨i, hi, hl1⟩ := h1
                obtain ⟨j, hj, hl2⟩ := h2
                subst hl1
                subst hl2
                have hij : i ≠ j := by
                  intro e
                  rw [e] at hne
                  exact hne rfl
                simp only [setAt, if_pos hi]
                rw [getAt_arr_cons, getAt_arr_cons,
                  List.getElem?_set_ne hij]
            | cons r rs =>
                simp only [List.isEmpty_cons, wildLocs,
                  List.mem_flatMap, List.mem_map, List.mem_range] at h1 h2
                obtain ⟨i, hi, l1, hl1, hloc1⟩ := h1
                obtain ⟨j, hj, l2, hl2, hloc2⟩ := h2
                subst hloc1
                subst hloc2
                have hci : a[i]? = some a[i] := List.getElem?_eq_getElem hi
                have hcj : a[j]? = some a[j] := List.getElem?_eq_getElem hj
                rw [hci] at hl1
                rw [hcj] at hl2
                simp only [Option.elim_some] at hl1 hl2
                rw [setAt_arr_cons a i l1 v _ hci, getAt_arr_cons,
                  getAt_arr_cons]
                by_cases hij : i = j
                · subst hij
                  have hl12 : l1 ≠ l2 := by
                    intro e
                    rw [e] at hne
                    exact hne rfl
                  rw [List.getElem?_set_self (by simpa using hi), hci]
                  exact ih a[i] l1 l2 v
                    (WFElems_mem a _ ha (List.getElem?_mem hci)) hl1 hl2 hl12
                · rw [List.getElem?_set_ne hij]
        | obj es =>
            have hp := WF_obj_parts es hwf
            cases rest with
            | nil =>
                simp only [List.isEmpty_nil, wildLocs, List.mem_map] at h1 h2
                obtain ⟨p, hpmem, hl1⟩ := h1
                obtain ⟨q, hqmem, hl2⟩ := h2
                subst hl1
                subst hl2
                have hpq : q.1 ≠ p.1 := by
                  intro e
                  rw [e] at hne
                  exact hne rfl
                simp only [setAt]
                rw [getAt_obj_cons, getAt_obj_cons,
                  objLookup_objInsert_ne es p.1 q.1 v hpq]
            | cons r rs =>
                simp only [List.isEmpty_cons, wildLocs,
                  List.mem_flatMap, List.mem_map] at h1 h2
                obtain ⟨p, hpmem, l1, hl1, hloc1⟩ := h1
                obtain ⟨q, hqmem, l2, hl2, hloc2⟩ := h2
                subst hloc1
                subst hloc2
                have hlkp : objLookup es p.1 = some p.2 :=
                  objLookup_of_mem_nodup es p.1 p.2 hp.1
                    (by rw [show (p.1, p.2) = p from rfl]; exact hpmem)
                have hlkq : objLookup es q.1 = some q.2 :=
                  objLookup_of_mem_nodup es q.1 q.2 hp.1
                    (by rw [show (q.1, q.2) = q from rfl]; exact hqmem)
                rw [setAt_obj_cons es p.1 l1 v p.2 hlkp, getAt_obj_cons,
                  getAt_obj_cons]
                by_cases hqk : q.1 = p.1
                · have hq2 : q.2 = p.2 := by
                    have := hlkq
                    rw [hqk, hlkp] at this
                    exact (Option.some.inj this).symm
                  have hl12 : l1 ≠ l2 := by
                    intro e
                    rw [e, hqk] at hne
                    exact hne rfl
                  rw [hqk, objLookup_objInsert_self, hlkp]
                  rw [hq2] at hl2
                  exact ih p.2 l1 l2 v
                    (WFEntries_mem es p.1 p.2 hp.2
                      (by rw [show (p.1, p.2) = p from rfl]; exact hpmem))
                    hl1 hl2 hl12
                · rw [objLookup_objInsert_ne es p.1 q.1 _ hqk]
        | null => simp [wildLocs] at h1
        | bool b => simp [wildLocs] at h1
        | num n => simp [wildLocs] at h1
        | str s => simp [wildLocs] at h1
      · rw [if_neg hs] at h1 h2
        cases hai : goAtoi seg with
        | some i =>
            rw [hai] at h1 h2
            simp only [Option.elim_some] at h1 h2
            cases t with
            | arr a =>
                have ha := WF_arr_elems a hwf
                by_cases hineg : i < 0
                · simp [idxLocs, hineg] at h1
                · cases rest with
                  | nil =>
                      simp only [idxLocs, if_neg hineg, List.isEmpty_nil,
                        if_true, List.mem_singleton] at h1 h2
                      rw [h1, h2] at hne
                      exact absurd rfl hne
                  | cons r rs =>
                      simp only [idxLocs, if_neg hineg, List.isEmpty_cons,
                        if_false] at h1 h2
                      cases hchild : a[i.toNat]? with
                      | none => rw [hchild] at h1; simp at h1
                      | some child =>
                          rw [hchild] at h1 h2
                          obtain ⟨l1, hl1, hloc1⟩ := List.mem_map.mp h1
                          obtain ⟨l2, hl2, hloc2⟩ := List.mem_map.mp h2
                          subst hloc1
                          subst hloc2
                          have hl12 : l1 ≠ l2 := by
                            intro e
                            rw [e] at hne
                            exact hne rfl
                          have hn : i.toNat < a.length :=
                            (List.getElem?_eq_some_iff.mp hchild).1
                          rw [setAt_arr_cons a i.toNat l1 v child hchild,
                            getAt_arr_cons, getAt_arr_cons,
                            List.getElem?_set_self (by simpa using hn), hchild]
                          exact ih child l1 l2 v
                            (WFElems_mem a child ha (List.getElem?_mem hchild))
                            hl1 hl2 hl12
            | obj es => simp [idxLocs] at h1
            | null => simp [idxLocs] at h1
            | bool b => simp [idxLocs] at h1
            | num n => simp [idxLocs] at h1
            | str s => simp [idxLocs] at h1
        | none =>
            rw [hai] at h1 h2
            simp only [Option.elim_none] at h1 h2
            cases t with
            | obj es =>
                have hp := WF_obj_parts es hwf
                cases rest with
                | nil =>
                    simp only [keyLocs, List.isEmpty_nil, if_true,
                      List.mem_singleton] at h1 h2
                    rw [h1, h2] at hne
                    exact absurd rfl hne
                | cons r rs =>
                    simp only [keyLocs, List.isEmpty_cons, if_false] at h1 h2
                    cases hchild : objLookup es seg with
                    | none => rw [hchild] at h1; simp at h1
                    | some child =>
                        rw [hchild] at h1 h2
                        obtain ⟨l1, hl1, hloc1⟩ := List.mem_map.mp h1
                        obtain ⟨l2, hl2, hloc2⟩ := List.mem_map.mp h2
                        subst hloc1
                        subst hloc2
                        have hl12 : l1 ≠ l2 := by
                          intro e
                          rw [e] at hne
                          exact hne rfl
                        rw [setAt_obj_cons es seg l1 v child hchild,
                          getAt_obj_cons, getAt_obj_cons,
                          objLookup_objInsert_self, hchild]
                        exact ih child l1 l2 v
                          (WFEntries_mem es seg child hp.2
                            (objLookup_mem es seg child hchild))
                          hl1 hl2 hl12
            | arr a => simp [keyLocs] at h1
            | null => simp [keyLocs] at h1
            | bool b => simp [keyLocs] at h1
            | num n => simp [keyLocs] at h1
            | str s => simp [keyLocs] at h1

theorem walkLocs_pairwise (segs : List String) :
    ∀ t : Json, WF t = true → (walkLocs t segs).Pairwise (· ≠ ·) := by
  induction segs with
  | nil => intro t _; rw [walkLocs_nil]; exact List.Pairwise.nil
  | cons seg rest ih =>
      intro t hwf
      rw [walkLocs_cons]
      by_cases hs : seg = "*"
      · rw [if_pos hs]
        cases t with
        | arr a =>
            have ha := WF_arr_elems a hwf
            cases rest with
            | nil =>
                simp only [List.isEmpty_nil, wildLocs]
                rw [List.pairwise_map]
                refine List.Pairwise.imp ?_ (List.nodup_range _)
                intro i j hij he
                exact hij (Seg.idx.inj (List.head_eq_of_cons_eq he))
            | cons r rs =>
                simp only [List.isEmpty_cons, wildLocs]
                rw [List.pairwise_flatMap]
                constructor
                · intro i hi
                  rw [List.mem_range] at hi
                  have hchild : a[i]? = some a[i] := List.getElem?_eq_getElem hi
                  rw [hchild]
                  simp only [Option.elim_some]
                  rw [List.pairwise_map]
                  refine List.Pairwise.imp ?_
                    (ih a[i] (WFElems_mem a _ ha (List.getElem?_mem hchild)))
                  intro l1 l2 hne he
                  exact hne (List.tail_eq_of_cons_eq he)
                · refine List.Pairwise.imp ?_ (List.nodup_range _)
                  intro i j hij x hx y hy he
                  obtain ⟨lx, _, hlx⟩ := List.mem_map.mp hx
                  obtain ⟨ly, _, hly⟩ := List.mem_map.mp hy
                  rw [← hlx, ← hly] at he
                  exact hij (Seg.idx.inj (List.head_eq_of_cons_eq he))
        | obj es =>
            have hp := WF_obj_parts es hwf
            cases rest with
            | nil =>
                simp only [List.isEmpty_nil, wildLocs]
                rw [List.pairwise_map]
                refine List.Pairwise.imp ?_ (keysNodup_pairwise es hp.1)
                intro p q hne he
                exact hne (Seg.key.inj (List.head_eq_of_cons_eq he))
            | cons r rs =>
                simp only [List.isEmpty_cons, wildLocs]
                rw [List.pairwise_flatMap]
                constructor
                · intro p hpmem
                  rw [List.pairwise_map]
                  refine List.Pairwise.imp ?_
                    (ih p.2 (WFEntries_mem es p.1 p.2 hp.2
                      (by rw [show (p.1, p.2) = p from rfl]; exact hpmem)))
                  intro l1 l2 hne he
                  exact hne (List.tail_eq_of_cons_eq he)
                · refine List.Pairwise.imp ?_ (keysNodup_pairwise es hp.1)
                  intro p q hpq x hx y hy he
                  obtain ⟨lx, _, hlx⟩ := List.mem_map.mp hx
                  obtain ⟨ly, _, hly⟩ := List.mem_map.mp hy
                  rw [← hlx, ← hly] at he
                  exact hpq (Seg.key.inj (List.head_eq_of_cons_eq he))
        | null => exact List.Pairwise.nil
        | bool b => exact List.Pairwise.nil
        | num n => exact List.Pairwise.nil
        | str s => exact List.Pairwise.nil
      · rw [if_neg hs]
        cases hai : goAtoi seg with
        | some i =>
            simp only [Option.elim_some]
            cases t with
            | arr a =>
                have ha := WF_arr_elems a hwf
                by_cases hineg : i < 0
                · simp [idxLocs, hineg]
                · cases rest with
                  | nil => simp [idxLocs, hineg]
                  | cons r rs =>
                      simp only [idxLocs, if_neg hineg, List.isEmpty_cons,
                        Bool.false_eq_true, if_false]
                      cases hchild : a[i.toNat]? with
                      | none => exact List.Pairwise.nil
                      | some child =>
                          simp only [Option.elim_some]
                          rw [List.pairwise_map]
                          refine List.Pairwise.imp ?_
                            (ih child (WFElems_mem a child ha
                              (List.getElem?_mem hchild)))
                          intro l1 l2 hne he
                          exact hne (List.tail_eq_of_cons_eq he)
            | obj es => exact List.Pairwise.nil
            | null => exact List.Pairwise.nil
            | bool b => exact List.Pairwise.nil
            | num n => exact List.Pairwise.nil
            | str s => exact List.Pairwise.nil
        | none =>
            simp only [Option.elim_none]
            cases t with
            | obj es =>
                have hp := WF_obj_parts es hwf
                cases rest with
                | nil => simp [keyLocs]
                | cons r rs =>
                    simp only [keyLocs, List.isEmpty_cons,
                      Bool.false_eq_true, if_false]
                    cases hchild : objLookup es seg with
                    | none => exact List.Pairwise.nil
                    | some child =>
                        simp only [Option.elim_some]
                        rw [List.pairwise_map]
                        refine List.Pairwise.imp ?_
                          (ih child (WFEntries_mem es seg child hp.2
                            (objLookup_mem es seg child hchild)))
                        intro l1 l2 hne he
                        exact hne (List.tail_eq_of_cons_eq he)
            | arr a => exact List.Pairwise.nil
            | null => exact List.Pairwise.nil
            | bool b => exact List.Pairwise.nil
            | num n => exact List.Pairwise.nil
            | str s => exact List.Pairwise.nil

theorem mergeFold_WF (src : List (String × Json)) :
    ∀ (d : List (String × Json)) (ch : Bool),
      keysNodup d = true → WFEntries d = true → WFEntries src = true →
      keysNodup (src.foldl mergeStep (d, ch)).1 = true
      ∧ WFEntries (src.foldl mergeStep (d, ch)).1 = true := by
  induction src with
  | nil => intro d ch h1 h2 _; exact ⟨h1, h2⟩
  | cons p t ih =>
      intro d ch h1 h2 hwf
      obtain ⟨k, v⟩ := p
      rw [WFEntries, Bool.and_eq_true] at hwf
      rw [List.foldl_cons]
      rcases hmp : mergeStep (d, ch) (k, v) with ⟨d', ch'⟩
      have hd' : keysNodup d' = true ∧ WFEntries d' = true := by
        unfold mergeStep at hmp
        cases hl : objLookup d k with
        | some cur =>
            rw [hl] at hmp
            by_cases hde : deepEqual cur v = true
            · simp only [hde, if_true] at hmp
              have : d' = d := ((Prod.mk.injEq _ _ _ _).mp hmp.symm).1
              rw [this]
              exact ⟨h1, h2⟩
            · simp only [Bool.not_eq_true] at hde
              simp only [hde, Bool.false_eq_true, if_false] at hmp
              have : d' = objInsert d k (clone v) :=
                ((Prod.mk.injEq _ _ _ _).mp hmp.symm).1
              rw [this]
              refine ⟨keysNodup_objInsert d k _ h1, ?_⟩
              rw [clone_id v]
              exact WFEntries_objInsert d k v h2 hwf.1
        | none =>
            rw [hl] at hmp
            have : d' = objInsert d k (clone v) :=
              ((Prod.mk.injEq _ _ _ _).mp hmp.symm).1
            rw [this]
            refine ⟨keysNodup_objInsert d k _ h1, ?_⟩
            rw [clone_id v]
            exact WFEntries_objInsert d k v h2 hwf.1
      exact ih d' ch' hd'.1 hd'.2 hwf.2

theorem MergedAt_congr (src : List (String × Json)) (t t' : Json) (loc : Loc)
    (hg : getAt t' loc = getAt t loc) (h : MergedAt src t loc) :
    MergedAt src t' loc := by
  rcases h with ⟨dv, hdv, h1, h2⟩ | ⟨d, hd, h2⟩
  · exact Or.inl ⟨dv, by rw [hg]; exact hdv, h1, h2⟩
  · exact Or.inr ⟨d, by rw [hg]; exact hd, h2⟩

theorem mergeTarget_eq_fresh (src : List (String × Json)) (t : Json)
    (ch : Bool) (loc : Loc)
    (h : getAt t loc = none ∨ getAt t loc = some Json.null) :
    mergeTarget src (t, ch) loc
      = (if (mergeInto [] src).2 then
          setAt (setAt t loc (Json.obj [])) loc (Json.obj (mergeInto [] src).1)
         else setAt t loc (Json.obj []),
         ch || (mergeInto [] src).2) := by
  rcases h with h | h
  · unfold mergeTarget
    rw [h]
  · unfold mergeTarget
    rw [h]

theorem mergeTarget_eq_obj (src : List (String × Json)) (t : Json) (ch : Bool)
    (loc : Loc) (d : List (String × Json))
    (h : getAt t loc = some (Json.obj d)) :
    mergeTarget src (t, ch) loc
      = (if (mergeInto d src).2 then setAt t loc (Json.obj (mergeInto d src).1)
         else t,
         ch || (mergeInto d src).2) := by
  unfold mergeTarget
  rw [h]

theorem mergeTarget_skip (src : List (String × Json)) (t : Json) (ch : Bool)
    (loc : Loc) (dv : Json) (hget : getAt t loc = some dv)
    (hnull : dv ≠ Json.null) (hobj : ∀ es, dv ≠ Json.obj es) :
    mergeTarget src (t, ch) loc = (t, ch) := by
  unfold mergeTarget
  rw [hget]
  cases dv with
  | null => exact absurd rfl hnull
  | obj es => exact absurd rfl (hobj es)
  | bool b => rfl
  | num n => rfl
  | str s => rfl
  | arr l => rfl

theorem mergeTarget_step_fresh (segs : List String)
    (src : List (String × Json)) (t : Json) (ch : Bool) (loc : Loc)
    (hwf : WF t = true) (hsrc : keysNodup src = true)
    (hwfsrc : WFEntries src = true) (hmem : loc ∈ walkLocs t segs)
    (hfresh : getAt t loc = none ∨ getAt t loc = some Json.null) :
    walkLocs (mergeTarget src (t, ch) loc).1 segs = walkLocs t segs
    ∧ WF (mergeTarget src (t, ch) loc).1 = true
    ∧ (∀ loc2, loc2 ∈ walkLocs t segs → loc2 ≠ loc →
        getAt (mergeTarget src (t, ch) loc).1 loc2 = getAt t loc2)
    ∧ MergedAt src (mergeTarget src (t, ch) loc).1 loc := by
  rw [mergeTarget_eq_fresh src t ch loc hfresh]
  have ht1wf : WF (setAt t loc (Json.obj [])) = true :=
    WF_setAt loc t _ hwf rfl
  have ht1walk : walkLocs (setAt t loc (Json.obj [])) segs = walkLocs t segs :=
    walkLocs_setAt segs t loc _ hwf hmem
  have hmem1 : loc ∈ walkLocs (setAt t loc (Json.obj [])) segs := by
    rw [ht1walk]
    exact hmem
  have hget1 : getAt (setAt t loc (Json.obj [])) loc = some (Json.obj []) :=
    getAt_setAt_self segs t loc _ hwf hmem
  by_cases hr2 : (mergeInto [] src).2 = true
  · simp only [hr2, if_true]
    have hwfm : WF (Json.obj (mergeInto [] src).1) = true := by
      rw [WF, Bool.and_eq_true]
      exact mergeFold_WF src [] false rfl rfl hwfsrc
    refine ⟨?_, WF_setAt loc _ _ ht1wf hwfm, ?_, ?_⟩
    · rw [walkLocs_setAt segs _ loc _ ht1wf hmem1, ht1walk]
    · intro loc2 h2 hne
      have hmem2 : loc2 ∈ walkLocs (setAt t loc (Json.obj [])) segs := by
        rw [ht1walk]
        exact h2
      rw [getAt_setAt_ne segs _ loc loc2 _ ht1wf hmem1 hmem2
        (fun e => hne e.symm)]
      exact getAt_setAt_ne segs t loc loc2 _ hwf hmem h2 (fun e => hne e.symm)
    · refine Or.inr ⟨(mergeInto [] src).1,
        getAt_setAt_self segs _ loc _ ht1wf hmem1, ?_⟩
      intro k v hm
      exact mergeFold_lookup_mem src [] false k v hsrc hwfsrc hm
  · simp only [hr2, if_false]
    have hfalse : (mergeInto [] src).2 = false := by
      rw [← Bool.not_eq_true]
      exact hr2
    refine ⟨ht1walk, ht1wf, ?_, ?_⟩
    · intro loc2 h2 hne
      exact getAt_setAt_ne segs t loc loc2 _ hwf hmem h2 (fun e => hne e.symm)
    · refine Or.inr ⟨[], hget1, ?_⟩
      intro k v hm
      exact (mergeFold_false src [] false hfalse).2 k v hm

theorem mergeTarget_step (segs : List String) (src : List (String × Json))
    (t : Json) (ch : Bool) (loc : Loc)
    (hwf : WF t = true) (hsrc : keysNodup src = true)
    (hwfsrc : WFEntries src = true) (hmem : loc ∈ walkLocs t segs) :
    walkLocs (mergeTarget src (t, ch) loc).1 segs = walkLocs t segs
    ∧ WF (mergeTarget src (t, ch) loc).1 = true
    ∧ (∀ loc2, loc2 ∈ walkLocs t segs → loc2 ≠ loc →
        getAt (mergeTarget src (t, ch) loc).1 loc2 = getAt t loc2)
    ∧ MergedAt src (mergeTarget src (t, ch) loc).1 loc := by
  cases hget : getAt t loc with
  | none =>
      exact mergeTarget_step_fresh segs src t ch loc hwf hsrc hwfsrc hmem
        (Or.inl hget)
  | some dv =>
      cases dv with
      | null =>
          exact mergeTarget_step_fresh segs src t ch loc hwf hsrc hwfsrc hmem
            (Or.inr hget)
      | obj d =>
          rw [mergeTarget_eq_obj src t ch loc d hget]
          have hdwf := WF_obj_parts d (WF_getAt loc t _ hwf hget)
          by_cases hr2 : (mergeInto d src).2 = true
          · simp only [hr2, if_true]
            have hwfm : WF (Json.obj (mergeInto d src).1) = true := by
              rw [WF, Bool.and_eq_true]
              exact mergeFold_WF src d false hdwf.1 hdwf.2 hwfsrc
            refine ⟨walkLocs_setAt segs t loc _ hwf hmem,
              WF_setAt loc t _ hwf hwfm, ?_, ?_⟩
            · intro loc2 h2 hne
              exact getAt_setAt_ne segs t loc loc2 _ hwf hmem h2
                (fun e => hne e.symm)
            · refine Or.inr ⟨(mergeInto d src).1,
                getAt_setAt_self segs t loc _ hwf hmem, ?_⟩
              intro k v hm
              exact mergeFold_lookup_mem src d false k v hsrc hwfsrc hm
          · simp only [hr2, if_false]
            have hfalse : (mergeInto d src).2 = false := by
              rw [← Bool.not_eq_true]
              exact hr2
            refine ⟨rfl, hwf, fun loc2 _ _ => rfl, ?_⟩
            refine Or.inr ⟨d, hget, ?_⟩
            intro k v hm
            exact (mergeFold_false src d false hfalse).2 k v hm
      | bool b =>
          rw [mergeTarget_skip src t ch loc (Json.bool b) hget
            (fun h => Json.noConfusion h) (fun es h => Json.noConfusion h)]
          exact ⟨rfl, hwf, fun loc2 _ _ => rfl,
            Or.inl ⟨Json.bool b, hget, fun h => Json.noConfusion h,
              fun es h => Json.noConfusion h⟩⟩
      | num n =>
          rw [mergeTarget_skip src t ch loc (Json.num n) hget
            (fun h => Json.noConfusion h) (fun es h => Json.noConfusion h)]
          exact ⟨rfl, hwf, fun loc2 _ _ => rfl,
            Or.inl ⟨Json.num n, hget, fun h => Json.noConfusion h,
              fun es h => Json.noConfusion h⟩⟩
      | str s =>
          rw [mergeTarget_skip src t ch loc (Json.str s) hget
            (fun h => Json.noConfusion h) (fun es h => Json.noConfusion h)]
          exact ⟨rfl, hwf, fun loc2 _ _ => rfl,
            Or.inl ⟨Json.str s, hget, fun h => Json.noConfusion h,
              fun es h => Json.noConfusion h⟩⟩
      | arr l =>
          rw [mergeTarget_skip src t ch loc (Json.arr l) hget
            (fun h => Json.noConfusion h) (fun es h => Json.noConfusion h)]
          exact ⟨rfl, hwf, fun loc2 _ _ => rfl,
            Or.inl ⟨Json.arr l, hget, fun h => Json.noConfusion h,
              fun es h => Json.noConfusion h⟩⟩

theorem mergeFoldTargets (segs : List String) (src : List (String × Json))
    (hsrc : keysNodup src = true) (hwfsrc : WFEntries src = true) :
    ∀ (l : List Loc) (t : Json) (ch : Bool),
      WF t = true →
      (∀ loc ∈ l, loc ∈ walkLocs t segs) →
      l.Pairwise (· ≠ ·) →
      walkLocs (l.foldl (mergeTarget src) (t, ch)).1 segs = walkLocs t segs
      ∧ WF (l.foldl (mergeTarget src) (t, ch)).1 = true
      ∧ (∀ loc2, loc2 ∈ walkLocs t segs → loc2 ∉ l →
          getAt (l.foldl (mergeTarget src) (t, ch)).1 loc2 = getAt t loc2)
      ∧ (∀ loc ∈ l, MergedAt src (l.foldl (mergeTarget src) (t, ch)).1 loc) := by
  intro l
  induction l with
  | nil =>
      intro t ch hwf _ _
      exact ⟨rfl, hwf, fun _ _ _ => rfl,
        fun loc hm => absurd hm (List.not_mem_nil _)⟩
  | cons loc l' ih =>
      intro t ch hwf hsub hpw
      have hmem : loc ∈ walkLocs t segs := hsub loc (List.mem_cons_self _ _)
      obtain ⟨hstep_walk, hstep_wf, hstep_frame, hstep_merged⟩ :=
        mergeTarget_step segs src t ch loc hwf hsrc hwfsrc hmem
      rw [List.foldl_cons]
      rcases hmp : mergeTarget src (t, ch) loc with ⟨t1, ch1⟩
      rw [hmp] at hstep_walk hstep_wf hstep_frame hstep_merged
      have hnotin : loc ∉ l' := by
        intro hm
        exact List.rel_of_pairwise_cons hpw hm rfl
      have hsub1 : ∀ loc2 ∈ l', loc2 ∈ walkLocs t1 segs := by
        intro loc2 hm
        rw [hstep_walk]
        exact hsub loc2 (List.mem_cons_of_mem _ hm)
      obtain ⟨hf_walk, hf_wf, hf_frame, hf_merged⟩ :=
        ih t1 ch1 hstep_wf hsub1 (List.Pairwise.of_cons hpw)
      refine ⟨by rw [hf_walk, hstep_walk], hf_wf, ?_, ?_⟩
      · intro loc2 h2 hni
        have hni' : loc2 ∉ l' := fun hm => hni (List.mem_cons_of_mem _ hm)
        have hne : loc2 ≠ loc := fun e => hni (by rw [e]; exact List.mem_cons_self _ _)
        rw [hf_frame loc2 (by rw [hstep_walk]; exact h2) hni']
        exact hstep_frame loc2 h2 hne
      · intro loc2 hm2
        rcases List.mem_cons.mp hm2 with he | ht
        · subst he
          refine MergedAt_congr src t1 _ loc2 ?_ hstep_merged
          exact hf_frame loc2 (by rw [hstep_walk]; exact hmem) hnotin
        · exact hf_merged loc2 ht

theorem mergeFold_merged (src : List (String × Json)) (l : List Loc) :
    ∀ (t : Json) (ch : Bool),
      (∀ loc ∈ l, MergedAt src t loc) →
      l.foldl (mergeTarget src) (t, ch) = (t, ch) := by
  induction l with
  | nil => intro t ch _; rfl
  | cons loc l' ih =>
      intro t ch h
      have hstep : mergeTarget src (t, ch) loc = (t, ch) := by
        rcases h loc (List.mem_cons_self _ _) with
          ⟨dv, hdv, h1, h2⟩ | ⟨d, hd, h2⟩
        · exact mergeTarget_skip src t ch loc dv hdv h1 h2
        · rw [mergeTarget_eq_obj src t ch loc d hd]
          have hnoop : mergeInto d src = (d, false) := mergeFold_noop src d false
            (fun k v hm => h2 k v hm)
          rw [hnoop]
          simp
      rw [List.foldl_cons, hstep]
      exact ih t ch (fun loc2 hm => h loc2 (List.mem_cons_of_mem _ hm))

/-- C9: applying the same compiled Merge action twice in sequence: the
second application reports changed = false and leaves the tree exactly as
the first application produced it.  The well-formedness hypotheses record
that Go maps cannot hold duplicate keys (true of every decoded tree and
every compiled value in the Go program; an artifact of the association-list
model). -/
theorem C9_merge_idempotent (t : Json) (path : String)
    (src : List (String × Json)) (t1 : Json) (c : Bool)
    (hwf : WF t = true) (hsrc : WF (Json.obj src) = true)
    (h1 : applyMerge t path (Json.obj src) = Except.ok (t1, c)) :
    applyMerge t1 path (Json.obj src) = Except.ok (t1, false) := by
  have hsp := WF_obj_parts src hsrc
  unfold applyMerge at h1 ⊢
  cases hl : findLocs t path with
  | nil =>
      rw [hl] at h1
      simp only [List.isEmpty_nil, if_true] at h1
      have ht1 : t1 = t := ((Prod.mk.injEq _ _ _ _).mp
        (Except.ok.inj h1)).1.symm
      subst ht1
      rw [hl]
      rfl
  | cons loc0 locs' =>
      rw [hl] at h1
      simp only [List.isEmpty_cons, Bool.false_eq_true, if_false] at h1
      have ht1 : t1 = ((loc0 :: locs').foldl (mergeTarget src) (t, false)).1 := by
        have := Except.ok.inj h1
        rw [this]
      obtain ⟨hwalk, hwf1, _, hmerged⟩ :=
        mergeFoldTargets (goSplitDot path) src hsp.1 hsp.2 (loc0 :: locs')
          t false hwf (fun loc hm => by rw [show walkLocs t (goSplitDot path)
            = findLocs t path from rfl, hl]; exact hm)
          (by rw [show (loc0 :: locs') = findLocs t path from hl.symm]
              exact walkLocs_pairwise (goSplitDot path) t hwf)
      have hlocs1 : findLocs t1 path = loc0 :: locs' := by
        rw [ht1]
        show walkLocs _ (goSplitDot path) = _
        rw [hwalk, show walkLocs t (goSplitDot path) = findLocs t path
          from rfl, hl]
      rw [hlocs1]
      simp only [List.isEmpty_cons, Bool.false_eq_true, if_false]
      have hfold : (loc0 :: locs').foldl (mergeTarget src) (t1, false)
          = (t1, false) := by
        refine mergeFold_merged src (loc0 :: locs') t1 false ?_
        intro loc hm
        rw [ht1]
        exact hmerged loc hm
      rw [hfold]

/-- C9, witness: the idempotence theorem applied at a concrete tree, path
and object value. -/
theorem C9_merge_idempotent_witness :
    applyMerge (Json.obj [("a", Json.obj [("k", Json.num 1)])]) "a"
        (Json.obj [("k", Json.num 2), ("m", Json.null)])
      = Except.ok (Json.obj [("a", Json.obj [("k", Json.num 2),
          ("m", Json.null)])], true)
    ∧ applyMerge (Json.obj [("a", Json.obj [("k", Json.num 2),
          ("m", Json.null)])]) "a"
        (Json.obj [("k", Json.num 2), ("m", Json.null)])
      = Except.ok (Json.obj [("a", Json.obj [("k", Json.num 2),
          ("m", Json.null)])], false) :=
  ⟨rfl,
   C9_merge_idempotent (Json.obj [("a", Json.obj [("k", Json.num 1)])]) "a"
     [("k", Json.num 2), ("m", Json.null)]
     (Json.obj [("a", Json.obj [("k", Json.num 2), ("m", Json.null)])]) true
     (by decide) (by decide) rfl⟩

/-! ### Claim C1 -/

/-- C1, counterexample: the claim says a lexically numeric token against an
Object is treated as a literal key, so that resolving `a.5` against a tree
whose `a` object holds the key `"5"` should yield the target bound to that
key.  In fact `walkTargets` reaches its object arm only when `strconv.Atoi`
fails (src/mutations.go:375-449), so resolution yields zero targets even
though the key `"5"` is present. -/
theorem C1_counterexample :
    findLocs (Json.obj [("a", Json.obj [("5", Json.num 1)])]) "a.5" = []
    ∧ objLookup [("5", Json.num 1)] "5" = some (Json.num 1) :=
  ⟨by decide, rfl⟩

/-- C1, amended: a lexically numeric path token is never resolved against an
Object at all — neither as an index nor as a literal key: when the current
container is an Object and the next segment parses with `strconv.Atoi`, path
resolution yields zero targets for that branch (silent miss). -/
theorem C1_amended (es : List (String × Json)) (seg : String)
    (rest : List String) (n : Int) (h : goAtoi seg = some n) :
    walkLocs (Json.obj es) (seg :: rest) = [] := by
  have hstar : goAtoi "*" = none := by decide
  have hne : seg ≠ "*" := by
    intro e
    rw [e, hstar] at h
    exact Option.noConfusion h
  rw [walkLocs]
  simp only [hne, if_false, h, Option.elim, keyLocs, idxLocs]

/-- C1, witness for the amended theorem at a concrete input. -/
theorem C1_amended_witness :
    goAtoi "5" = some 5
    ∧ walkLocs (Json.obj [("5", Json.num 1)]) ["5"] = [] :=
  ⟨by decide, C1_amended [("5", Json.num 1)] "5" [] 5 (by decide)⟩

/-! ### Claim C2 -/

/-- C2, counterexample: a Merge action whose configured value is the number
`5` passes compilation (the `"set", "merge"` arm of `Action.compile` checks
only that the value is present and decodes, src/mutations.go:38-46), and
executing it against a tree where the path resolves to a target raises the
"value must be an object" error at runtime (src/mutations.go:153-156) —
refuting both the compile-time rejection and the absence of execution-time
value errors. -/
theorem C2_counterexample :
    compileActionValue "merge" (some (Json.num 5)) = Except.ok (some (Json.num 5))
    ∧ applyMerge (Json.obj [("x", Json.obj [])]) "x" (Json.num 5)
        = Except.error "merge x: value must be an object" :=
  ⟨rfl, rfl⟩

/-- C2, amended: compilation does not check a Merge value for objectness —
any successfully decoded JSON value compiles; the object check is performed
during execution, where `applyMerge` raises the "value must be an object"
error precisely when the path resolves to at least one target.  (Only
MergeIfMatch rejects a non-object configured value at compile time.) -/
theorem C2_amended :
    (∀ v : Json, compileActionValue "merge" (some v) = Except.ok (some v))
    ∧ (∀ v : Json, (∀ es, v ≠ Json.obj es) →
        compileActionValue "merge_if_match" (some v)
          = Except.error "value must be an object")
    ∧ (∀ (t : Json) (path : String) (v : Json),
        findLocs t path ≠ [] → (∀ es, v ≠ Json.obj es) →
        applyMerge t path v
          = Except.error ("merge " ++ path ++ ": value must be an object")) := by
  refine ⟨fun v => rfl, fun v hv => ?_, fun t path v hne hv => ?_⟩
  · cases v with
    | obj es => exact absurd rfl (hv es)
    | null => rfl
    | bool b => rfl
    | num n => rfl
    | str s => rfl
    | arr l => rfl
  · unfold applyMerge
    rw [if_neg (by simpa [List.isEmpty_iff] using hne)]
    cases v with
    | obj es => exact absurd rfl (hv es)
    | null => rfl
    | bool b => rfl
    | num n => rfl
    | str s => rfl
    | arr l => rfl

/-- C2, witness: the amended theorem applied at concrete inputs. -/
theorem C2_amended_witness :
    compileActionValue "merge" (some (Json.num 5)) = Except.ok (some (Json.num 5))
    ∧ applyMerge (Json.obj [("x", Json.obj [])]) "x" (Json.num 5)
        = Except.error ("merge " ++ "x" ++ ": value must be an object") :=
  ⟨C2_amended.1 (Json.num 5),
   C2_amended.2.2 (Json.obj [("x", Json.obj [])]) "x" (Json.num 5)
     (by decide) (fun es h => Json.noConfusion h)⟩

/-! ### Claim C3 -/

/-- C3, counterexample: the claim says two Objects are deep-equal only if
they have the same key set; but `deepEqual` reads a missing key as Go `nil`
(JSON null), so the singleton objects with distinct keys `x` and `y`, both
bound to null, compare deep-equal even though `x` is not a key of the
second object. -/
theorem C3_counterexample :
    deepEqual (Json.obj [("x", Json.null)]) (Json.obj [("y", Json.null)]) = true
    ∧ objLookup [("y", Json.null)] "x" = none :=
  ⟨by decide, rfl⟩

/-- C3, amended: arrays are deep-equal iff same length and pairwise
deep-equal, scalars by value as claimed; objects however are deep-equal iff
they have the same number of keys and every entry of the first is deep-equal
to the second's value at that key, where a key missing from the second
compares as Null — same key set is not required. -/
theorem C3_amended :
    (∀ a b, deepEqual (Json.obj a) (Json.obj b)
      = (a.length == b.length && a.all fun p => deepEqual p.2 (objLookupD b p.1)))
    ∧ (∀ a b, deepEqual (Json.arr a) (Json.arr b)
      = (a.length == b.length && (a.zip b).all fun p => deepEqual p.1 p.2))
    ∧ (∀ x y, deepEqual (Json.num x) (Json.num y) = (x == y))
    ∧ (∀ x y, deepEqual (Json.str x) (Json.str y) = (x == y))
    ∧ (∀ x y, deepEqual (Json.bool x) (Json.bool y) = (x == y))
    ∧ deepEqual Json.null Json.null = true := by
  refine ⟨fun a b => ?_, fun a b => ?_, fun x y => rfl, fun x y => rfl,
    fun x y => rfl, rfl⟩
  · rw [deepEqual, deepEqualEntries_eq_all]
  · rw [deepEqual]
    by_cases h : a.length = b.length
    · rw [deepEqualElems_eq_zip_all a b h]
    · have : (a.length == b.length) = false := by
        simpa using h
      rw [this]
      simp

/-! ### Claim C4 -/

/-- C4, counterexample: the claim says an existing Null destination is left
untouched by Merge; but `applyMerge` treats a nil destination like an absent
one (src/mutations.go:160-165), replacing it with an empty object and
merging into it — here the existing Null at key `a` becomes the merged
object and the action reports changed. -/
theorem C4_counterexample :
    getAt (Json.obj [("a", Json.null)]) [Seg.key "a"] = some Json.null
    ∧ applyMerge (Json.obj [("a", Json.null)]) "a" (Json.obj [("k", Json.num 1)])
        = Except.ok (Json.obj [("a", Json.obj [("k", Json.num 1)])], true) :=
  ⟨rfl, rfl⟩

/-- C4, amended: for every Merge target whose current value exists and is
neither an Object nor Null, the merge leaves the tree unchanged at that
target and reports no change for it (an existing Null destination, by
contrast, is replaced with an empty Object and merged into, like an absent
one). -/
theorem C4_amended (t : Json) (ch : Bool) (loc : Loc)
    (src : List (String × Json)) (dv : Json)
    (hget : getAt t loc = some dv) (hnull : dv ≠ Json.null)
    (hobj : ∀ es, dv ≠ Json.obj es) :
    mergeTarget src (t, ch) loc = (t, ch) := by
  unfold mergeTarget
  rw [hget]
  cases dv with
  | null => exact absurd rfl hnull
  | obj es => exact absurd rfl (hobj es)
  | bool b => rfl
  | num n => rfl
  | str s => rfl
  | arr l => rfl

/-- C4, witness: the amended theorem at a concrete non-object, non-null
target. -/
theorem C4_amended_witness :
    getAt (Json.obj [("a", Json.num 7)]) [Seg.key "a"] = some (Json.num 7)
    ∧ mergeTarget [("k", Json.num 1)] (Json.obj [("a", Json.num 7)], false)
        [Seg.key "a"]
      = (Json.obj [("a", Json.num 7)], false) :=
  ⟨rfl,
   C4_amended (Json.obj [("a", Json.num 7)]) false [Seg.key "a"]
     [("k", Json.num 1)] (Json.num 7) rfl
     (fun h => Json.noConfusion h) (fun _ h => Json.noConfusion h)⟩

/-! ### Claim C5 -/

/-- C5: for every array target, `transformItems` rebuilds the array by an
in-order scan where non-strings and non-matching strings pass through
unchanged and each matching string fans out into one expanded element per
replacement template; and the spec's pixeldrain example evaluates exactly as
claimed. -/
theorem C5_transform_array_fanout :
    (∀ (M : Type) (re : GoRegex M) (repls : List String) (a : List Json),
      (transformItems re repls a).1
        = a.flatMap fun item =>
            match item with
            | Json.str s =>
                match re.findSubmatch s with
                | none => [Json.str s]
                | some m => repls.map fun tmpl => Json.str (re.expandString tmpl s m)
            | other => [other])
    ∧ transformItems pixeldrainRegex ["$0", "https://mirror.example.com/$1"]
        [Json.str "https://pixeldrain.com/file1"]
      = ([Json.str "https://pixeldrain.com/file1",
          Json.str "https://mirror.example.com/file1"], true) := by
  constructor
  · intro M re repls a
    have h := transformItems_foldl re repls a [] false
    simpa [transformItems] using h
  · rfl

/-! ### Claim C6 -/

/-- C6: whenever a path resolves to zero targets, Set, Merge, Delete and
TransformArray all report changed = false, raise no error (Merge returns
`ok`; the others cannot fail), and return the tree unchanged. -/
theorem C6_zero_targets_noop (t : Json) (path : String) (v : Json)
    (M : Type) (re : GoRegex M) (repls : List String)
    (h : findLocs t path = []) :
    applySet t path v = (t, false)
    ∧ applyMerge t path v = Except.ok (t, false)
    ∧ applyDelete t path = (t, false)
    ∧ applyTransformArray t path re repls = (t, false) := by
  refine ⟨?_, ?_, ?_, ?_⟩
  · unfold applySet
    rw [h]
    rfl
  · unfold applyMerge
    rw [h]
    rfl
  · unfold applyDelete
    rw [h]
    rfl
  · unfold applyTransformArray
    rw [h]
    rfl

/-- C6, witness: a concrete tree and path with zero targets. -/
theorem C6_zero_targets_noop_witness :
    findLocs (Json.obj [("a", Json.num 1)]) "b.c" = []
    ∧ applySet (Json.obj [("a", Json.num 1)]) "b.c" (Json.num 9)
        = (Json.obj [("a", Json.num 1)], false) :=
  ⟨by decide,
   (C6_zero_targets_noop (Json.obj [("a", Json.num 1)]) "b.c" (Json.num 9)
     String pixeldrainRegex [] (by decide)).1⟩

/-! ### Claim C7 -/

/-- C7: if no string element of any resolved source array matches the
regex, MergeIfMatch returns the tree unchanged with changed = false; if
some string element matches, it performs exactly a Merge of the configured
value at the target path. -/
theorem C7_merge_if_match (M : Type) (re : GoRegex M) (t : Json)
    (srcPath tgtPath : String) (v : Json) :
    (sourceHasMatch re t srcPath = false →
      applyMergeIfMatch t srcPath tgtPath re v = Except.ok (t, false))
    ∧ (sourceHasMatch re t srcPath = true →
      applyMergeIfMatch t srcPath tgtPath re v = applyMerge t tgtPath v) := by
  constructor
  · intro h
    unfold applyMergeIfMatch
    rw [h]
    rfl
  · intro h
    unfold applyMergeIfMatch
    rw [h]
    rfl

/-- C7, witness: a concrete no-match source leaves the tree untouched. -/
theorem C7_merge_if_match_witness :
    sourceHasMatch pixeldrainRegex
        (Json.obj [("params", Json.arr [Json.arr [Json.str "zzz"]])]) "params.0"
      = false
    ∧ applyMergeIfMatch (Json.obj [("params", Json.arr [Json.arr [Json.str "zzz"]])])
        "params.0" "params.1" pixeldrainRegex (Json.obj [("k", Json.num 1)])
      = Except.ok (Json.obj [("params", Json.arr [Json.arr [Json.str "zzz"]])], false) :=
  ⟨by decide,
   (C7_merge_if_match String pixeldrainRegex
     (Json.obj [("params", Json.arr [Json.arr [Json.str "zzz"]])])
     "params.0" "params.1" (Json.obj [("k", Json.num 1)])).1 (by decide)⟩

/-! ### Claim C10 -/

/-- C10: `applyMerge` checks for zero targets before checking the value's
type, so a non-object Merge value is silently accepted (changed = false, no
error) whenever the path resolves to no targets, and the runtime
"value must be an object" error is raised exactly when a target exists. -/
theorem C10_merge_value_check_after_target_check (t : Json) (path : String)
    (v : Json) :
    (findLocs t path = [] → applyMerge t path v = Except.ok (t, false))
    ∧ (findLocs t path ≠ [] → (∀ es, v ≠ Json.obj es) →
        applyMerge t path v
          = Except.error ("merge " ++ path ++ ": value must be an object")) := by
  constructor
  · intro h
    unfold applyMerge
    rw [h]
    rfl
  · intro hne hv
    unfold applyMerge
    rw [if_neg (by simpa [List.isEmpty_iff] using hne)]
    cases v with
    | obj es => exact absurd rfl (hv es)
    | null => rfl
    | bool b => rfl
    | num n => rfl
    | str s => rfl
    | arr l => rfl

/-- C10, witness: both branches at concrete inputs — a zero-target miss with
a non-object value succeeds silently, and the same misconfigured value
errors once a target exists. -/
theorem C10_witness :
    applyMerge (Json.obj [("a", Json.num 7)]) "b.c" (Json.num 5)
      = Except.ok (Json.obj [("a", Json.num 7)], false)
    ∧ applyMerge (Json.obj [("a", Json.num 7)]) "a" (Json.num 5)
      = Except.error ("merge " ++ "a" ++ ": value must be an object") :=
  ⟨(C10_merge_value_check_after_target_check (Json.obj [("a", Json.num 7)])
      "b.c" (Json.num 5)).1 (by decide),
   (C10_merge_value_check_after_target_check (Json.obj [("a", Json.num 7)])
      "a" (Json.num 5)).2 (by decide) (fun es h => Json.noConfusion h)⟩

/-! ### Claim C8 -/

/-- C8: setting a terminal array index at or beyond the current length grows
the array to index + 1, filling the gap with nulls and placing the value at
the index (src/mutations.go:378-404); and the spec's example — Set at `a.5`
on a two-element array — produces `[1, 2, null, null, null, clone v]`. -/
theorem C8_set_grows_array (t : Json) (p : Loc) (a : List Json) (n : Nat)
    (v : Json) (hget : getAt t p = some (Json.arr a)) (hlen : a.length ≤ n) :
    setAt t (p ++ [Seg.idx n]) v
      = setAt t p (Json.arr (a ++ List.replicate (n - a.length) Json.null ++ [v]))
    ∧ applySet (Json.obj [("a", Json.arr [Json.num 1, Json.num 2])]) "a.5" v
      = (Json.obj [("a", Json.arr [Json.num 1, Json.num 2, Json.null, Json.null,
          Json.null, clone v])], true) := by
  refine ⟨?_, rfl⟩
  induction p generalizing t with
  | nil =>
      rw [getAt_nil] at hget
      have ht : t = Json.arr a := Option.some.inj hget
      subst ht
      have hn : ¬ n < a.length := Nat.not_lt.mpr hlen
      simp [setAt, hn]
  | cons s p' ih =>
      cases s with
      | key k =>
          cases t with
          | obj es =>
              rw [getAt_obj_cons] at hget
              cases hl : objLookup es k with
              | none => rw [hl] at hget; exact Option.noConfusion hget
              | some cur =>
                  rw [hl] at hget
                  rw [List.cons_append,
                    setAt_obj_cons es k (p' ++ [Seg.idx n]) v cur hl,
                    setAt_obj_cons es k p' _ cur hl, ih cur hget]
          | null => exact Option.noConfusion hget
          | bool b => exact Option.noConfusion hget
          | num m => exact Option.noConfusion hget
          | str s => exact Option.noConfusion hget
          | arr l => exact Option.noConfusion hget
      | idx i =>
          cases t with
          | arr l =>
              rw [getAt_arr_cons] at hget
              cases hl : l[i]? with
              | none => rw [hl] at hget; exact Option.noConfusion hget
              | some cur =>
                  rw [hl] at hget
                  rw [List.cons_append,
                    setAt_arr_cons l i (p' ++ [Seg.idx n]) v cur hl,
                    setAt_arr_cons l i p' _ cur hl, ih cur hget]
          | null => exact Option.noConfusion hget
          | bool b => exact Option.noConfusion hget
          | num m => exact Option.noConfusion hget
          | str s => exact Option.noConfusion hget
          | obj es => exact Option.noConfusion hget

/-- C8, witness: the growth equation applied at the spec's example input. -/
theorem C8_set_grows_array_witness :
    getAt (Json.obj [("a", Json.arr [Json.num 1, Json.num 2])]) [Seg.key "a"]
      = some (Json.arr [Json.num 1, Json.num 2])
    ∧ setAt (Json.obj [("a", Json.arr [Json.num 1, Json.num 2])])
        ([Seg.key "a"] ++ [Seg.idx 5]) (Json.num 9)
      = setAt (Json.obj [("a", Json.arr [Json.num 1, Json.num 2])]) [Seg.key "a"]
          (Json.arr ([Json.num 1, Json.num 2]
            ++ List.replicate (5 - [Json.num 1, Json.num 2].length) Json.null
            ++ [Json.num 9])) :=
  ⟨rfl,
   (C8_set_grows_array (Json.obj [("a", Json.arr [Json.num 1, Json.num 2])])
     [Seg.key "a"] [Json.num 1, Json.num 2] 5 (Json.num 9) rfl
     (by decide)).1⟩

end JsonParse
